import Mathlib

set_option maxHeartbeats 1000000

/- Shallow embedding of the Metamath database verifier in
   src/ctcheckmm-std.cpp (struct checkmm).  C++ containers are modelled as
   lists: std::set<string> as a sorted duplicate-free list maintained by
   sorted insertion, std::map as an association list with insert-if-absent,
   std::vector / std::deque / std::queue as plain lists.  Undefined behaviour
   (out-of-range indexing, dereferencing a failed map find, stack.back() on an
   empty stack) is made explicit with a crash result. -/

/-- Kinds of undefined behaviour in the C++ source: calling back() on an
empty vector, an out-of-range index or failed map-find dereference, and
specifically the substitution-map lookups of the disjoint-variable check. -/
inductive Crash where
  | top
  | oob
  | substMiss
deriving DecidableEq

/-- Result of running a piece of the verifier: a value, or undefined
behaviour of the given kind. -/
inductive Res (α : Type) where
  | ok (a : α)
  | crash (c : Crash)
deriving DecidableEq

abbrev Expression := List String

/-- The first component is the statement of the hypothesis, the second is
true iff the hypothesis is floating. -/
abbrev Hypothesis := Expression × Bool

/-- An axiom or a theorem. -/
structure Assertion where
  hypotheses : List String
  disjvars : List (String × String)
  expression : Expression
deriving DecidableEq

structure Scope where
  activevariables : List String
  activehyp : List String
  disjvars : List (List String)
  floatinghyp : List (String × String)
deriving DecidableEq

/-- The global tables of the verifier. -/
structure DB where
  constants : List String
  vars : List String
  hypotheses : List (String × Hypothesis)
  assertions : List (String × Assertion)
deriving DecidableEq

/-- The whole parsing state: tables, scope stack (index 0 is the outermost
scope, the last element is the innermost), and the token FIFO (head is the
front of the queue). -/
structure St where
  db : DB
  scopes : List Scope
  tokens : List String
deriving DecidableEq

/-- Lookup in an association list, modelling std::map::find. -/
def flook {α : Type} (k : String) : List (String × α) → Option α
  | [] => none
  | (k2, v) :: rest => if k = k2 then some v else flook k rest

/-- Insert-if-absent into an association list, modelling std::map::insert
(which keeps the existing entry when the key is present). -/
def minsert {α : Type} (k : String) (v : α) (m : List (String × α)) :
    List (String × α) :=
  match flook k m with
  | some _ => m
  | none => (k, v) :: m

/-- The string comparison of std::less<string>, computed on the character
lists so that the kernel can evaluate it; it agrees with the String order
(lemma sltB_iff). -/
def sltB (a b : String) : Bool := decide (a.data < b.data)

/-- Sorted insertion into a sorted duplicate-free list, modelling
std::set<string>::insert. -/
def sinsert (x : String) : List String → List String
  | [] => [x]
  | y :: ys =>
    if sltB x y then x :: y :: ys
    else if x = y then y :: ys
    else y :: sinsert x ys

/-- Lexicographic order on string pairs, modelling operator< of std::pair. -/
def pairltB (p q : String × String) : Bool :=
  sltB p.1 q.1 || (p.1 == q.1 && sltB p.2 q.2)

/-- Sorted insertion into a sorted duplicate-free list of pairs, modelling
std::set<pair<string,string>>::insert. -/
def pinsert (p : String × String) : List (String × String) → List (String × String)
  | [] => [p]
  | q :: qs =>
    if pairltB p q then p :: q :: qs
    else if p = q then q :: qs
    else q :: pinsert p qs

/-- The merge loop of std::set_intersection, made structurally recursive on
an explicit step budget so that the kernel can evaluate it; every step
consumes at least one element of either range, so a budget of the summed
lengths is exact. -/
def sinterF : Nat → List String → List String → List String
  | 0, _, _ => []
  | _ + 1, [], _ => []
  | _ + 1, _ :: _, [] => []
  | fuel + 1, x :: xs, y :: ys =>
    if sltB x y then sinterF fuel xs (y :: ys)
    else if sltB y x then sinterF fuel (x :: xs) ys
    else x :: sinterF fuel xs ys

/-- Intersection of two sorted ranges, modelling std::set_intersection. -/
def sinter (a b : List String) : List String :=
  sinterF (a.length + b.length) a b

/-- All ordered-by-position pairs of a list: (a, b) such that a occurs
strictly before b.  This is the double iterator loop of constructassertion. -/
def pairsOf : List String → List (String × String)
  | [] => []
  | x :: xs => xs.map (fun y => (x, y)) ++ pairsOf xs

/-- Collect the declared variables of an expression into a sorted set,
modelling the varsused insertion loops of constructassertion. -/
def addVars (vars : List String) (e : Expression) (vu : List String) :
    List String :=
  e.foldl (fun a t => if t ∈ vars then sinsert t a else a) vu

/-- Apply a function to the last element of a list (scopes.back()); crash on
an empty list as the C++ back() would. -/
def modifyLast {α : Type} (f : α → α) : List α → Res (List α)
  | [] => .crash .oob
  | [a] => .ok [f a]
  | a :: b :: rest =>
    match modifyLast f (b :: rest) with
    | .ok l => .ok (a :: l)
    | .crash c => .crash c

/-- Determine if a string is used as a label. -/
def labelused (db : DB) (label : String) : Bool :=
  (flook label db.hypotheses).isSome || (flook label db.assertions).isSome

/-- Find the active floating hypothesis corresponding to a variable, or the
empty string if there is none.  The C++ walks the scope vector from begin()
to end(), i.e. from the outermost scope inwards. -/
def getfloatinghyp (scopes : List Scope) (var : String) : String :=
  match scopes with
  | [] => ""
  | s :: rest =>
    match flook var s.floatinghyp with
    | some l => l
    | none => getfloatinghyp rest var

/-- Determine if a string is an active variable. -/
def isactivevariable (scopes : List Scope) (str : String) : Bool :=
  scopes.any (fun s => s.activevariables.contains str)

/-- Determine if a string is the label of an active hypothesis. -/
def isactivehyp (scopes : List Scope) (str : String) : Bool :=
  scopes.any (fun s => s.activehyp.contains str)

/-- Determine if there is an active disjoint variable restriction on two
different variables. -/
def isdvr (scopes : List Scope) (var1 var2 : String) : Bool :=
  if var1 = var2 then false
  else scopes.any (fun s =>
    s.disjvars.any (fun g => g.contains var1 && g.contains var2))

/-- Determine if a character is white space in Metamath. -/
def ismmws (ch : Char) : Bool :=
  ch = ' ' || ch = '\n' || ch = '\t' || Char.ofNat 12 = ch || ch = '\r'

/-- ASCII isalnum, as the C locale classifies the printable-ASCII tokens the
verifier feeds to it. -/
def cIsAlnum (ch : Char) : Bool :=
  ('0' ≤ ch && ch ≤ '9') || ('A' ≤ ch && ch ≤ 'Z') || ('a' ≤ ch && ch ≤ 'z')

/-- ASCII isupper. -/
def cIsUpper (ch : Char) : Bool := 'A' ≤ ch && ch ≤ 'Z'

/-- Determine if a token is a label token. -/
def islabeltoken (token : String) : Bool :=
  token.data.all (fun ch => cIsAlnum ch || ch = '.' || ch = '-' || ch = '_')

/-- Determine if a token is a math symbol token. -/
def ismathsymboltoken (token : String) : Bool :=
  !(token.data.contains '$')

/-- Determine if a token consists solely of upper-case letters or question
marks. -/
def containsonlyupperorq (token : String) : Bool :=
  token.data.all (fun ch => cIsUpper ch || ch = '?')

/- ----------------------------------------------------------------- -/
/- constructassertion                                                -/
/- ----------------------------------------------------------------- -/

/-- One step of the mandatory-hypothesis loop of constructassertion: inspect
one active hypothesis label (the loop visits them innermost scope first, each
scope in reverse declaration order).  The state is the pair of the
push_front-accumulated hypothesis deque and the varsused set. -/
def mhStep (vars : List String) (tbl : List (String × Hypothesis))
    (st : List String × List String) (l : String) :
    Res (List String × List String) :=
  match flook l tbl with
  | none => .crash .oob
  | some (e, true) =>
    match e[1]? with
    | none => .crash .oob
    | some v => if v ∈ st.2 then .ok (l :: st.1, st.2) else .ok st
  | some (e, false) => .ok (l :: st.1, addVars vars e st.2)

/-- The mandatory-hypothesis loop over one reversed activehyp vector. -/
def mhList (vars : List String) (tbl : List (String × Hypothesis)) :
    List String → List String × List String → Res (List String × List String)
  | [], st => .ok st
  | l :: rest, st =>
    match mhStep vars tbl st l with
    | .ok st2 => mhList vars tbl rest st2
    | .crash c => .crash c

/-- The outer loop of the mandatory-hypothesis computation: the scopes are
visited through reverse iterators, and each scope's activehyp vector is
itself visited in reverse. -/
def mhScopes (vars : List String) (tbl : List (String × Hypothesis)) :
    List Scope → List String × List String → Res (List String × List String)
  | [], st => .ok st
  | s :: rest, st =>
    match mhList vars tbl s.activehyp.reverse st with
    | .ok st2 => mhScopes vars tbl rest st2
    | .crash c => .crash c

/-- Insert all position-ordered pairs of one intersected disjoint-variable
group into the assertion's disjvars set. -/
def dvGroup (vu : List String) (g : List String)
    (acc : List (String × String)) : List (String × String) :=
  (pairsOf (sinter g vu)).foldl (fun a p => pinsert p a) acc

/-- The disjoint-variable loop over one scope's group vector. -/
def dvList (vu : List String) (gs : List (List String))
    (acc : List (String × String)) : List (String × String) :=
  gs.foldl (fun a g => dvGroup vu g a) acc

/-- The disjoint-variable loop over all scopes (outermost first). -/
def dvScopes (vu : List String) (ss : List Scope)
    (acc : List (String × String)) : List (String × String) :=
  ss.foldl (fun a s => dvList vu s.disjvars a) acc

/-- Construct an Assertion from an Expression: determine the mandatory
hypotheses and disjoint variable restrictions, insert the assertion into the
assertions table and return it.  When the label is already present the C++
std::map::insert returns the existing entry, which is then updated in
place. -/
def constructassertion (db : DB) (scopes : List Scope) (label : String)
    (exp : Expression) : Res (DB × Assertion) :=
  let a0 : Assertion := (flook label db.assertions).getD ⟨[], [], []⟩
  let vu0 := addVars db.vars exp []
  match mhScopes db.vars db.hypotheses scopes.reverse (a0.hypotheses, vu0) with
  | .crash c => .crash c
  | .ok (mh, vu) =>
    let a : Assertion :=
      { hypotheses := mh
        disjvars := dvScopes vu scopes a0.disjvars
        expression := exp }
    .ok ({ db with assertions :=
             match flook label db.assertions with
             | some _ => db.assertions.map (fun kv => if kv.1 = label then (label, a) else kv)
             | none => (label, a) :: db.assertions },
         a)

/- ----------------------------------------------------------------- -/
/- Substitution and the compressed-proof number decoder              -/
/- ----------------------------------------------------------------- -/

/-- Make a substitution of variables: tokens absent from the substitution
map are constants and copied through, tokens present are replaced by their
image. -/
def makesubstitution (substmap : List (String × Expression))
    (original : Expression) : Expression :=
  original.foldr
    (fun t acc =>
      match flook t substmap with
      | none => t :: acc
      | some e => e ++ acc) []

/-- The size_t maximum of a 64-bit platform. -/
def sizeMax : Nat := 2 ^ 64 - 1

/-- Get the raw numbers from compressed proof format; the letter Z is
translated as 0.  Characters are compared exactly as the C++ does. -/
def getproofnumbersAux (label : String) :
    List Char → Nat → Bool → List Nat → Except String (List Nat)
  | [], num, _, acc =>
    if num ≠ 0 then
      .error ("Compressed proof of theorem " ++ label ++ " ends in unfinished number")
    else .ok acc
  | ch :: rest, num, justgotnum, acc =>
    if ch ≤ 'T' then
      let addval : Nat := ch.toNat - ('A'.toNat - 1)
      if num > sizeMax / 20 || 20 * num > sizeMax - addval then
        .error ("Overflow computing numbers in compressed proof of " ++ label)
      else
        getproofnumbersAux label rest 0 true (acc ++ [20 * num + addval])
    else if ch ≤ 'Y' then
      let addval : Nat := ch.toNat - 'T'.toNat
      if num > sizeMax / 5 || 5 * num > sizeMax - addval then
        .error ("Overflow computing numbers in compressed proof of " ++ label)
      else
        getproofnumbersAux label rest (5 * num + addval) false acc
    else
      if !justgotnum then
        .error ("Stray Z found in compressed proof of " ++ label)
      else
        getproofnumbersAux label rest num false (acc ++ [0])

/-- Get the raw numbers from compressed proof format. -/
def getproofnumbers (label proof : String) : Except String (List Nat) :=
  getproofnumbersAux label proof.data 0 false []

/- ----------------------------------------------------------------- -/
/- verifyassertionref                                                -/
/- ----------------------------------------------------------------- -/

/-- Record a floating-hypothesis substitution.  std::map::insert keeps an
existing entry, and the C++ then std::copy-appends the stack symbols to the
mapped expression, so a duplicate key appends. -/
def substAdd (key : String) (val : Expression)
    (m : List (String × Expression)) : List (String × Expression) :=
  match flook key m with
  | some old => m.map (fun kv => if kv.1 = key then (key, old ++ val) else kv)
  | none => (key, val) :: m

/-- The unification loop of verifyassertionref: walk the referenced
assertion's mandatory hypotheses alongside the top stack slots, building the
substitution map.  Returns false when unification fails. -/
def unifyLoop (tbl : List (String × Hypothesis)) :
    List String → List Expression → List (String × Expression) →
    Res (Bool × List (String × Expression))
  | [], _, subst => .ok (true, subst)
  | l :: ls, slots, subst =>
    match flook l tbl with
    | none => .crash .oob
    | some (e, true) =>
      match slots with
      | [] => .crash .oob
      | slot :: srest =>
        match e.head?, slot.head? with
        | some t0, some s0 =>
          if t0 ≠ s0 then .ok (false, subst)
          else
            match e[1]? with
            | none => .crash .oob
            | some v => unifyLoop tbl ls srest (substAdd v (slot.drop 1) subst)
        | _, _ => .crash .oob
    | some (e, false) =>
      match slots with
      | [] => .crash .oob
      | slot :: srest =>
        if makesubstitution subst e ≠ slot then .ok (false, subst)
        else unifyLoop tbl ls srest subst

/-- The disjoint-variable phase of verifyassertionref: for each mandatory
disjoint pair look up both images in the substitution map (a miss is the
find()->second dereference of claim C9), collect the declared variables of
each image and require isdvr on every cross pair. -/
def dvCheck (dbvars : List String) (scopes : List Scope)
    (subst : List (String × Expression)) :
    List (String × String) → Res Bool
  | [] => .ok true
  | (x, y) :: rest =>
    match flook x subst, flook y subst with
    | some e1, some e2 =>
      let v1 := addVars dbvars e1 []
      let v2 := addVars dbvars e2 []
      if v1.all (fun a => v2.all (fun b => isdvr scopes a b)) then
        dvCheck dbvars scopes subst rest
      else .ok false
    | _, _ => .crash .substMiss

/-- Subroutine for proof verification: verify a proof step referencing an
assertion (i.e., not a hypothesis).  Returns the flag returned by the C++
function, the updated stack, and the diagnostics printed. -/
def verifyassertionref (db : DB) (scopes : List Scope)
    (thlabel reflabel : String) (stack : List Expression) :
    Res (Bool × List Expression × List String) :=
  match flook reflabel db.assertions with
  | none => .crash .oob
  | some assertion =>
    if stack.length < assertion.hypotheses.length then
      .ok (false, stack,
        ["In proof of theorem " ++ thlabel ++ " not enough items found on stack"])
    else
      let base := stack.length - assertion.hypotheses.length
      match unifyLoop db.hypotheses assertion.hypotheses (stack.drop base) [] with
      | .crash c => .crash c
      | .ok (false, _) =>
        .ok (false, stack,
          ["In proof of theorem " ++ thlabel ++ " unification failed"])
      | .ok (true, substitutions) =>
        let stack2 := stack.take base
        match dvCheck db.vars scopes substitutions assertion.disjvars with
        | .crash c => .crash c
        | .ok false =>
          .ok (false, stack2,
            ["In proof of theorem " ++ thlabel ++ " disjoint variable restriction violated"])
        | .ok true =>
          .ok (true, stack2 ++ [makesubstitution substitutions assertion.expression], [])

/- ----------------------------------------------------------------- -/
/- The two proof verifiers                                           -/
/- ----------------------------------------------------------------- -/

/-- The step loop of verifyregularproof: a hypothesis label pushes its
expression, anything else is an assertion-reference step.  Returns the C++
flag, the final stack, and the diagnostics printed so far. -/
def regLoop (db : DB) (scopes : List Scope) (label : String) :
    List String → List Expression → List String →
    Res (Bool × List Expression × List String)
  | [], stack, msgs => .ok (true, stack, msgs)
  | step :: rest, stack, msgs =>
    match flook step db.hypotheses with
    | some hyp => regLoop db scopes label rest (stack ++ [hyp.1]) msgs
    | none =>
      match verifyassertionref db scopes label step stack with
      | .crash c => .crash c
      | .ok (false, stack2, m) => .ok (false, stack2, msgs ++ m)
      | .ok (true, stack2, m) => regLoop db scopes label rest stack2 (msgs ++ m)

/-- Verify a regular proof.  The final stack must hold exactly one item;
when that item differs from the theorem's expression a diagnostic is printed
but true is still returned. -/
def verifyregularproof (db : DB) (scopes : List Scope) (label : String)
    (thrm : Assertion) (proof : List String) : Res (Bool × List String) :=
  match regLoop db scopes label proof [] [] with
  | .crash c => .crash c
  | .ok (false, _, msgs) => .ok (false, msgs)
  | .ok (true, stack, msgs) =>
    match stack with
    | [e] =>
      if e ≠ thrm.expression then
        .ok (true, msgs ++
          ["Proof of theorem " ++ label ++ " proves wrong statement"])
      else .ok (true, msgs)
    | _ =>
      .ok (false, msgs ++
        ["Proof of theorem " ++ label ++
         " does not end with only one item on the stack"])

/-- One step of the compressed-proof loop for a decoded number k.  The state
is the stack together with the ordered saved-steps list. -/
def cstep (db : DB) (scopes : List Scope) (label : String) (thrm : Assertion)
    (labels : List String) (k : Nat) (stack saved : List Expression) :
    Res (Bool × List Expression × List Expression × List String) :=
  let mandhypt := thrm.hypotheses.length
  let labelt := mandhypt + labels.length
  if k = 0 then
    match stack.getLast? with
    | none => .crash .top
    | some top => .ok (true, stack, saved ++ [top], [])
  else if k ≤ mandhypt then
    match thrm.hypotheses[k - 1]? with
    | none => .crash .oob
    | some hl =>
      match flook hl db.hypotheses with
      | none => .crash .oob
      | some hyp => .ok (true, stack ++ [hyp.1], saved, [])
  else if k ≤ labelt then
    match labels[k - mandhypt - 1]? with
    | none => .crash .oob
    | some proofstep =>
      match flook proofstep db.hypotheses with
      | some hyp => .ok (true, stack ++ [hyp.1], saved, [])
      | none =>
        match verifyassertionref db scopes label proofstep stack with
        | .crash c => .crash c
        | .ok (b, stack2, m) => .ok (b, stack2, saved, m)
  else if k > labelt + saved.length then
    .ok (false, stack, saved,
      ["Number in compressed proof of " ++ label ++ " is too high"])
  else
    match saved[k - labelt - 1]? with
    | none => .crash .oob
    | some e => .ok (true, stack ++ [e], saved, [])

/-- The loop of verifycompressedproof over the decoded numbers. -/
def cLoop (db : DB) (scopes : List Scope) (label : String) (thrm : Assertion)
    (labels : List String) :
    List Nat → List Expression → List Expression → List String →
    Res (Bool × List Expression × List Expression × List String)
  | [], stack, saved, msgs => .ok (true, stack, saved, msgs)
  | k :: rest, stack, saved, msgs =>
    match cstep db scopes label thrm labels k stack saved with
    | .crash c => .crash c
    | .ok (false, stack2, saved2, m) => .ok (false, stack2, saved2, msgs ++ m)
    | .ok (true, stack2, saved2, m) =>
      cLoop db scopes label thrm labels rest stack2 saved2 (msgs ++ m)

/-- Verify a compressed proof; the final checks are identical to the
regular verifier's, including returning true on "proves wrong statement". -/
def verifycompressedproof (db : DB) (scopes : List Scope) (label : String)
    (thrm : Assertion) (labels : List String) (proofnumbers : List Nat) :
    Res (Bool × List String) :=
  match cLoop db scopes label thrm labels proofnumbers [] [] [] with
  | .crash c => .crash c
  | .ok (false, _, _, msgs) => .ok (false, msgs)
  | .ok (true, stack, _, msgs) =>
    match stack with
    | [e] =>
      if e ≠ thrm.expression then
        .ok (true, msgs ++
          ["Proof of theorem " ++ label ++ " proves wrong statement"])
      else .ok (true, msgs)
    | _ =>
      .ok (false, msgs ++
        ["Proof of theorem " ++ label ++
         " does not end with only one item on the stack"])

/- ----------------------------------------------------------------- -/
/- Statement parsers                                                 -/
/- ----------------------------------------------------------------- -/

/-- The body loop of readexpression: consume tokens until the terminator,
requiring each to be a constant or a variable with an active floating
hypothesis. -/
def readexpRest (db : DB) (scopes : List Scope)
    (stattype label terminator : String) :
    List String → Expression → Option Expression × List String × List String
  | [], _ => (none, [], ["Unfinished $" ++ stattype ++ " statement " ++ label])
  | tok :: rest, acc =>
    if tok = terminator then (some acc, rest, [])
    else if db.constants.contains tok || !(getfloatinghyp scopes tok).isEmpty then
      readexpRest db scopes stattype label terminator rest (acc ++ [tok])
    else
      (none, rest,
       ["In $" ++ stattype ++ " statement " ++ label ++ " token " ++ tok ++
        " found which is not a constant or variable in an active $f statement"])

/-- Read an expression from the token stream: the first token must be a
constant type code, the rest are consumed until the terminator. -/
def readexpression (db : DB) (scopes : List Scope)
    (stattype label terminator : String) (tokens : List String) :
    Option Expression × List String × List String :=
  match tokens with
  | [] => (none, [], ["Unfinished $" ++ stattype ++ " statement " ++ label])
  | type :: rest =>
    if db.constants.contains type then
      readexpRest db scopes stattype label terminator rest [type]
    else
      (none, type :: rest,
       ["First symbol in $" ++ stattype ++ " statement " ++ label ++ " is " ++
        type ++ " which is not a constant"])

/-- Parse $e statement. -/
def parsee (st : St) (label : String) : Res (Bool × St × List String) :=
  match readexpression st.db st.scopes "e" label "$." st.tokens with
  | (none, toks, msgs) => .ok (false, { st with tokens := toks }, msgs)
  | (some newhyp, toks, _) =>
    match modifyLast (fun s => { s with activehyp := s.activehyp ++ [label] })
        st.scopes with
    | .crash c => .crash c
    | .ok scopes2 =>
      .ok (true,
        { db := { st.db with
                    hypotheses := minsert label (newhyp, false) st.db.hypotheses }
          scopes := scopes2
          tokens := toks }, [])

/-- Parse $a statement. -/
def parsea (st : St) (label : String) : Res (Bool × St × List String) :=
  match readexpression st.db st.scopes "a" label "$." st.tokens with
  | (none, toks, msgs) => .ok (false, { st with tokens := toks }, msgs)
  | (some newaxiom, toks, _) =>
    match constructassertion st.db st.scopes label newaxiom with
    | .crash c => .crash c
    | .ok (db2, _) =>
      .ok (true, { db := db2, scopes := st.scopes, tokens := toks }, [])

/-- Parse $f statement. -/
def parsef (st : St) (label : String) : Res (Bool × St × List String) :=
  match st.tokens with
  | [] => .ok (false, st, ["Unfinished $f statement" ++ label])
  | type :: rest1 =>
    if !st.db.constants.contains type then
      .ok (false, st,
        ["First symbol in $f statement " ++ label ++ " is " ++ type ++
         " which is not a constant"])
    else
      match rest1 with
      | [] => .ok (false, { st with tokens := rest1 },
                   ["Unfinished $f statement " ++ label])
      | var :: rest2 =>
        if !isactivevariable st.scopes var then
          .ok (false, { st with tokens := rest1 },
            ["Second symbol in $f statement " ++ label ++ " is " ++ var ++
             " which is not an active variable"])
        else if !(getfloatinghyp st.scopes var).isEmpty then
          .ok (false, { st with tokens := rest1 },
            ["The variable " ++ var ++ " appears in a second $f statement " ++ label])
        else
          match rest2 with
          | [] => .ok (false, { st with tokens := rest2 },
                       ["Unfinished $f statement" ++ label])
          | dot :: rest3 =>
            if dot ≠ "$." then
              .ok (false, { st with tokens := rest2 },
                ["Expected end of $f statement " ++ label ++ " but found " ++ dot])
            else
              match modifyLast
                  (fun s =>
                    { s with
                        activehyp := s.activehyp ++ [label]
                        floatinghyp := minsert var label s.floatinghyp })
                  st.scopes with
              | .crash c => .crash c
              | .ok scopes2 =>
                .ok (true,
                  { db := { st.db with
                              hypotheses :=
                                minsert label ([type, var], true) st.db.hypotheses }
                    scopes := scopes2
                    tokens := rest3 }, [])

/-- The token loop of parsed: collect the distinct active variables of a $d
statement. -/
def parsedLoop (scopes : List Scope) :
    List String → List String → Option (List String) × List String × List String
  | [], _ => (none, [], ["Unterminated $d statement"])
  | tok :: rest, dvars =>
    if tok = "$." then (some dvars, tok :: rest, [])
    else if !isactivevariable scopes tok then
      (none, rest,
       ["Token " ++ tok ++ " is not an active variable, but was found in a $d statement"])
    else if tok ∈ dvars then
      (none, rest, ["$d statement mentions " ++ tok ++ " twice"])
    else parsedLoop scopes rest (sinsert tok dvars)

/-- Parse $d statement. -/
def parsed (st : St) : Res (Bool × St × List String) :=
  match parsedLoop st.scopes st.tokens [] with
  | (none, t2, m) => .ok (false, { st with tokens := t2 }, m)
  | (some dvars, t2, _) =>
    if dvars.length < 2 then
      .ok (false, { st with tokens := t2 }, ["Not enough items in $d statement"])
    else
      match modifyLast (fun s => { s with disjvars := s.disjvars ++ [dvars] })
          st.scopes with
      | .crash c => .crash c
      | .ok scopes2 =>
        .ok (true, { st with scopes := scopes2, tokens := t2.drop 1 }, [])

/-- The token loop of parsec: declare each token as a new constant. -/
def parsecLoop (db : DB) :
    List String → Bool → Option (DB × Bool) × List String × List String
  | [], _ => (none, [], ["Unterminated $c statement"])
  | tok :: rest, _listempty =>
    if tok = "$." then (some (db, _listempty), tok :: rest, [])
    else if !ismathsymboltoken tok then
      (none, rest, ["Attempt to declare " ++ tok ++ " as a constant"])
    else if db.vars.contains tok then
      (none, rest, ["Attempt to redeclare variable " ++ tok ++ " as a constant"])
    else if labelused db tok then
      (none, rest, ["Attempt to reuse label " ++ tok ++ " as a constant"])
    else if db.constants.contains tok then
      (none, rest, ["Attempt to redeclare constant " ++ tok])
    else parsecLoop { db with constants := sinsert tok db.constants } rest false

/-- Parse $c statement. -/
def parsec (st : St) : Res (Bool × St × List String) :=
  if st.scopes.length > 1 then
    .ok (false, st, ["$c statement occurs in inner block"])
  else
    match parsecLoop st.db st.tokens true with
    | (none, t2, m) => .ok (false, { st with tokens := t2 }, m)
    | (some (db2, listempty), t2, _) =>
      if listempty then
        .ok (false, { st with db := db2, tokens := t2 }, ["Empty $c statement"])
      else
        .ok (true, { st with db := db2, tokens := t2.drop 1 }, [])

/-- The token loop of parsev: declare each token as a new active variable.
The innermost scope's activevariables set is updated together with the
global variables set. -/
def parsevLoop (db : DB) (scopes : List Scope) :
    List String → Bool →
    Res (Option (DB × List Scope × Bool) × List String × List String)
  | [], _ => .ok (none, [], ["Unterminated $v statement"])
  | tok :: rest, _listempty =>
    if tok = "$." then .ok (some (db, scopes, _listempty), tok :: rest, [])
    else if !ismathsymboltoken tok then
      .ok (none, rest, ["Attempt to declare " ++ tok ++ " as a variable"])
    else if db.constants.contains tok then
      .ok (none, rest, ["Attempt to redeclare constant " ++ tok ++ " as a variable"])
    else if labelused db tok then
      .ok (none, rest, ["Attempt to reuse label " ++ tok ++ " as a variable"])
    else if isactivevariable scopes tok then
      .ok (none, rest, ["Attempt to redeclare active variable " ++ tok])
    else
      match modifyLast
          (fun s => { s with activevariables := sinsert tok s.activevariables })
          scopes with
      | .crash c => .crash c
      | .ok scopes2 =>
        parsevLoop { db with vars := sinsert tok db.vars } scopes2 rest false

/-- Parse $v statement. -/
def parsev (st : St) : Res (Bool × St × List String) :=
  match parsevLoop st.db st.scopes st.tokens true with
  | .crash c => .crash c
  | .ok (none, t2, m) => .ok (false, { st with tokens := t2 }, m)
  | .ok (some (db2, scopes2, listempty), t2, _) =>
    if listempty then
      .ok (false, { db := db2, scopes := scopes2, tokens := t2 },
           ["Empty $v statement"])
    else
      .ok (true, { db := db2, scopes := scopes2, tokens := t2.drop 1 }, [])

/-- The compressed-proof label-list loop of parsep: collect labels until ")"
with the three per-label checks (self-reference, mandatory hypothesis in
label list, unknown statement).  On success the ")" token is discarded. -/
def collectCLabels (db : DB) (scopes : List Scope) (label : String)
    (mandhyps : List String) :
    List String → List String → Option (List String) × List String × List String
  | [], _ => (none, [], ["Unfinished $p statement " ++ label])
  | tok :: rest, acc =>
    if tok = ")" then (some acc, rest, [])
    else
      let acc2 := acc ++ [tok]
      if tok = label then
        (none, rest, ["Proof of theorem " ++ label ++ " refers to itself"])
      else if mandhyps.contains tok then
        (none, rest,
         ["Compressed proof of theorem " ++ label ++ " has mandatory hypothesis " ++
          tok ++ " in label list"])
      else if (flook tok db.assertions).isNone && !isactivehyp scopes tok then
        (none, rest,
         ["Proof of theorem " ++ label ++ " refers to " ++ tok ++
          " which is not an active statement"])
      else collectCLabels db scopes label mandhyps rest acc2

/-- The compressed-proof character loop of parsep: concatenate tokens up to
"$." checking each consists only of upper-case letters or question marks.
The "$." token is left at the front of the returned stream because the
empty-proof check precedes its removal. -/
def collectCProof (label : String) :
    List String → String → Option String × List String × List String
  | [], _ => (none, [], ["Unfinished $p statement " ++ label])
  | tok :: rest, proof =>
    if tok = "$." then (some proof, tok :: rest, [])
    else
      if !containsonlyupperorq tok then
        (none, rest, ["Bogus character found in compressed proof of " ++ label])
      else collectCProof label rest (proof ++ tok)

/-- The regular-proof token loop of parsep: collect proof labels up to "$.",
tracking incompleteness ("?") and failing on self-reference or a label that
is neither an assertion nor an active hypothesis.  The "$." token is left at
the front of the returned stream. -/
def collectRProof (db : DB) (scopes : List Scope) (label : String) :
    List String → List String → Bool →
    Option (List String × Bool) × List String × List String
  | [], _, _ => (none, [], ["Unfinished $p statement " ++ label])
  | tok :: rest, proof, incomplete =>
    if tok = "$." then (some (proof, incomplete), tok :: rest, [])
    else
      let proof2 := proof ++ [tok]
      if tok = "?" then collectRProof db scopes label rest proof2 true
      else if tok = label then
        (none, rest, ["Proof of theorem " ++ label ++ " refers to itself"])
      else if (flook tok db.assertions).isNone && !isactivehyp scopes tok then
        (none, rest,
         ["Proof of theorem " ++ label ++ " refers to " ++ tok ++
          " which is not an active statement"])
      else collectRProof db scopes label rest proof2 incomplete

/-- Parse $p statement: read the theorem's expression, construct its
assertion, then read and verify its (compressed or regular) proof. -/
def parsep (st : St) (label : String) : Res (Bool × St × List String) :=
  match readexpression st.db st.scopes "p" label "$=" st.tokens with
  | (none, toks, msgs) => .ok (false, { st with tokens := toks }, msgs)
  | (some newtheorem, toks1, _) =>
    match constructassertion st.db st.scopes label newtheorem with
    | .crash c => .crash c
    | .ok (db1, assertion) =>
      let st1 : St := { db := db1, scopes := st.scopes, tokens := toks1 }
      match toks1 with
      | [] => .ok (false, st1, ["Unfinished $p statement " ++ label])
      | tok0 :: toks2 =>
        if tok0 = "(" then
          match collectCLabels db1 st.scopes label assertion.hypotheses toks2 [] with
          | (none, t3, m) => .ok (false, { st1 with tokens := t3 }, m)
          | (some labels, t3, _) =>
            match collectCProof label t3 "" with
            | (none, t4, m) => .ok (false, { st1 with tokens := t4 }, m)
            | (some proof, t4, _) =>
              if proof = "" then
                .ok (false, { st1 with tokens := t4 },
                     ["Theorem " ++ label ++ " has no proof"])
              else
                let t5 := t4.drop 1
                if proof.data.contains '?' then
                  .ok (true, { st1 with tokens := t5 },
                       ["Warning: Proof of theorem " ++ label ++ " is incomplete"])
                else
                  match getproofnumbers label proof with
                  | .error m => .ok (false, { st1 with tokens := t5 }, [m])
                  | .ok proofnumbers =>
                    match verifycompressedproof db1 st.scopes label assertion
                        labels proofnumbers with
                    | .crash c => .crash c
                    | .ok (b, m) => .ok (b, { st1 with tokens := t5 }, m)
        else
          match collectRProof db1 st.scopes label toks1 [] false with
          | (none, t3, m) => .ok (false, { st1 with tokens := t3 }, m)
          | (some (proof, incomplete), t3, _) =>
            if proof = [] then
              .ok (false, { st1 with tokens := t3 },
                   ["Theorem " ++ label ++ " has no proof"])
            else
              let t4 := t3.drop 1
              if incomplete then
                .ok (true, { st1 with tokens := t4 },
                     ["Warning: Proof of theorem " ++ label ++ " is incomplete"])
              else
                match verifyregularproof db1 st.scopes label assertion proof with
                | .crash c => .crash c
                | .ok (b, m) => .ok (b, { st1 with tokens := t4 }, m)

/-- Parse labeled statement: namespace checks, then dispatch on the
statement keyword. -/
def parselabel (st : St) (label : String) : Res (Bool × St × List String) :=
  if st.db.constants.contains label then
    .ok (false, st, ["Attempt to reuse constant " ++ label ++ " as a label"])
  else if st.db.vars.contains label then
    .ok (false, st, ["Attempt to reuse variable " ++ label ++ " as a label"])
  else if labelused st.db label then
    .ok (false, st, ["Attempt to reuse label " ++ label])
  else
    match st.tokens with
    | [] => .ok (false, st, ["Unfinished labeled statement"])
    | type :: rest =>
      let st2 : St := { st with tokens := rest }
      if type = "$p" then parsep st2 label
      else if type = "$e" then parsee st2 label
      else if type = "$a" then parsea st2 label
      else if type = "$f" then parsef st2 label
      else .ok (false, st2, ["Unexpected token " ++ type ++ " encountered"])

/-- The default (empty) scope pushed by the driver. -/
def emptyScope : Scope := ⟨[], [], [], []⟩

/-- The top-level token dispatch loop of run, with fuel for termination.
Returns the exit code (0 success, 1 failure) and the diagnostics printed. -/
def driverLoop (fuel : Nat) (st : St) (msgs : List String) :
    Option (Res (Nat × List String)) :=
  match fuel with
  | 0 => none
  | fuel + 1 =>
    match st.tokens with
    | [] =>
      if st.scopes.length > 1 then
        some (.ok (1, msgs ++ ["$\x7b without corresponding $\x7d"]))
      else some (.ok (0, msgs))
    | token :: rest =>
      let st1 : St := { st with tokens := rest }
      let next : Res (Bool × St × List String) → Option (Res (Nat × List String)) :=
        fun r =>
          match r with
          | .crash c => some (.crash c)
          | .ok (false, _, m) => some (.ok (1, msgs ++ m))
          | .ok (true, st2, m) => driverLoop fuel st2 (msgs ++ m)
      if islabeltoken token then next (parselabel st1 token)
      else if token = "$d" then next (parsed st1)
      else if token = "$\x7b" then
        driverLoop fuel { st1 with scopes := st1.scopes ++ [emptyScope] } msgs
      else if token = "$\x7d" then
        let scopes2 := st1.scopes.dropLast
        if scopes2 = [] then
          some (.ok (1, msgs ++ ["$\x7d without corresponding $\x7b"]))
        else driverLoop fuel { st1 with scopes := scopes2 } msgs
      else if token = "$c" then next (parsec st1)
      else if token = "$v" then next (parsev st1)
      else some (.ok (1, msgs ++ ["Unexpected token " ++ token ++ " encountered"]))

/- ----------------------------------------------------------------- -/
/- Tokenizer and source reader                                       -/
/- ----------------------------------------------------------------- -/

/-- Skip Metamath whitespace. -/
def skipWs : List Char → List Char
  | [] => []
  | c :: cs => if ismmws c then skipWs cs else c :: cs

/-- Collect one token: characters up to the next whitespace, failing (none)
on a character outside printable ASCII. -/
def grabTok : List Char → List Char → Option (String × List Char)
  | acc, [] => some (String.mk acc.reverse, [])
  | acc, c :: cs =>
    if ismmws c then some (String.mk acc.reverse, cs)
    else if c < '!' || '~' < c then none
    else grabTok (c :: acc) cs

/-- nexttoken: skip whitespace then read one token.  The empty token means
end of input; none means an invalid character was hit. -/
def nexttoken (cs : List Char) : Option (String × List Char) :=
  grabTok [] (skipWs cs)

/-- Whether pat is a prefix of l. -/
def startsWithL : List Char → List Char → Bool
  | [], _ => true
  | _ :: _, [] => false
  | a :: as, b :: bs => a = b && startsWithL as bs

/-- Whether pat occurs as a substring (string::find on characters). -/
def hasSubstrAux (pat : List Char) : List Char → Bool
  | [] => startsWithL pat []
  | c :: cs => startsWithL pat (c :: cs) || hasSubstrAux pat cs

/-- Whether pat occurs inside s, modelling s.find(pat) != npos. -/
def hasSubstr (pat s : String) : Bool := hasSubstrAux pat.data s.data

/-- The state of the source reader: the include-once filename registry and
the token FIFO being filled. -/
structure RState where
  names : List String
  toks : List String
deriving DecidableEq

mutual

/-- readtokens: record the filename in the include-once registry (returning
immediately when it was already present), obtain the text (the text argument
when non-empty, otherwise through the file-system oracle fs), and run the
tokenizing loop.  none means the fuel ran out. -/
def readtokensF (fs : String → Option String) :
    Nat → String → String → RState → Option (Bool × RState)
  | 0, _, _, _ => none
  | fuel + 1, filename, text, rst =>
    if rst.names.contains filename then some (true, rst)
    else
      let rst1 : RState := { rst with names := filename :: rst.names }
      match (if text ≠ "" then some text else fs filename) with
      | none => some (false, rst1)
      | some src => rtLoop fs fuel rst1 false false "" src.data

/-- The token loop of readtokens with its three modes: normal, comment and
file inclusion. -/
def rtLoop (fs : String → Option String) :
    Nat → RState → Bool → Bool → String → List Char → Option (Bool × RState)
  | 0, _, _, _, _, _ => none
  | fuel + 1, rst, incomment, infile, newfn, chars =>
    match nexttoken chars with
    | none => some (false, rst)
    | some (tok, rest) =>
      if tok = "" then
        if incomment then some (false, rst)
        else if infile then some (false, rst)
        else some (true, rst)
      else if incomment then
        if tok = "$)" then rtLoop fs fuel rst false infile newfn rest
        else if hasSubstr "$(" tok then some (false, rst)
        else if hasSubstr "$)" tok then some (false, rst)
        else rtLoop fs fuel rst true infile newfn rest
      else if tok = "$(" then rtLoop fs fuel rst true infile newfn rest
      else if infile then
        if newfn = "" then
          if tok.data.contains '$' then some (false, rst)
          else rtLoop fs fuel rst incomment true tok rest
        else if tok ≠ "$]" then some (false, rst)
        else
          match readtokensF fs fuel newfn "" rst with
          | none => none
          | some (false, rst2) => some (false, rst2)
          | some (true, rst2) => rtLoop fs fuel rst2 false false "" rest
      else if tok = "$[" then rtLoop fs fuel rst incomment true "" rest
      else rtLoop fs fuel { rst with toks := rst.toks ++ [tok] } incomment infile newfn rest

end

/-- run: read all tokens of the database (from text or through fs), push the
outermost scope and drive the statement dispatch loop.  Returns the
process exit code: 0 on success, 1 on failure. -/
def run (fs : String → Option String) (fuel : Nat) (filename text : String) :
    Option (Res (Nat × List String)) :=
  match readtokensF fs fuel filename text ⟨[], []⟩ with
  | none => none
  | some (false, _) => some (.ok (1, []))
  | some (true, rst) =>
    driverLoop fuel { db := ⟨[], [], [], []⟩, scopes := [emptyScope], tokens := rst.toks } []

/- ----------------------------------------------------------------- -/
/- Specification-side definitions                                    -/
/- ----------------------------------------------------------------- -/

/-- All active hypothesis labels in declaration order: outermost scope
first, declaration order within each scope. -/
def allhyps : List Scope → List String
  | [] => []
  | s :: rest => s.activehyp ++ allhyps rest

/-- All active disjoint-variable groups, outermost scope first. -/
def allGroups : List Scope → List (List String)
  | [] => []
  | s :: rest => s.disjvars ++ allGroups rest

/-- A symbol is used mandatorily by an assertion with expression exp: it is
a declared variable occurring in exp or in the expression of some active
essential hypothesis. -/
def usedVar (vars : List String) (tbl : List (String × Hypothesis))
    (scopes : List Scope) (exp : Expression) (v : String) : Prop :=
  v ∈ vars ∧
    (v ∈ exp ∨ ∃ l ∈ allhyps scopes, ∃ e, flook l tbl = some (e, false) ∧ v ∈ e)

/-- Boolean test: the variable occurs in exp or in some active essential
hypothesis's expression. -/
def usedVarB (tbl : List (String × Hypothesis)) (scopes : List Scope)
    (exp : Expression) (v : String) : Bool :=
  exp.contains v ||
    (allhyps scopes).any (fun l =>
      match flook l tbl with
      | some (e, false) => e.contains v
      | _ => false)

/-- The membership predicate of the mandatory-hypothesis list as the
specification words it: every essential hypothesis, and exactly the floating
hypotheses whose variable is used mandatorily. -/
def mandPred (tbl : List (String × Hypothesis)) (scopes : List Scope)
    (exp : Expression) (l : String) : Bool :=
  match flook l tbl with
  | some (_, false) => true
  | some (e, true) =>
    match e[1]? with
    | some v => usedVarB tbl scopes exp v
    | none => false
  | none => false

/-- The same predicate expressed through an explicit used-variable set. -/
def mandPredVu (tbl : List (String × Hypothesis)) (vu : List String)
    (l : String) : Bool :=
  match flook l tbl with
  | some (_, false) => true
  | some (e, true) =>
    match e[1]? with
    | some v => vu.contains v
    | none => false
  | none => false

/-- The shape of number lists produced by getproofnumbers: a zero (save
marker) may appear only directly after an emission with the just-got-num
flag set, i.e. after a nonzero number. -/
def zGood : Bool → List Nat → Prop
  | _, [] => True
  | jgn, k :: rest => (k = 0 → jgn = true) ∧ zGood (decide (k ≠ 0)) rest

/- ----------------------------------------------------------------- -/
/- Helper lemmas: sorted sets                                        -/
/- ----------------------------------------------------------------- -/

theorem sltB_iff (a b : String) : sltB a b = true ↔ a < b := by
  unfold sltB
  rw [decide_eq_true_iff, String.lt_iff_toList_lt]
  exact Iff.rfl

theorem mem_sinsert (a x : String) (l : List String) :
    a ∈ sinsert x l ↔ a = x ∨ a ∈ l := by
  induction l with
  | nil => simp [sinsert]
  | cons y ys ih =>
    simp only [sinsert]
    split
    · simp
    · split
      · rename_i h1 h2
        subst h2
        simp only [List.mem_cons]
        tauto
      · simp only [List.mem_cons, ih]
        tauto

theorem sorted_sinsert (x : String) (l : List String)
    (h : l.Pairwise (· < ·)) : (sinsert x l).Pairwise (· < ·) := by
  induction l with
  | nil => simp [sinsert]
  | cons y ys ih =>
    rcases List.pairwise_cons.mp h with ⟨hy, hys⟩
    simp only [sinsert]
    split
    · rename_i h1
      have h1b : x < y := (sltB_iff x y).mp h1
      refine List.pairwise_cons.mpr ⟨?_, h⟩
      intro b hb
      rcases List.mem_cons.mp hb with rfl | hb
      · exact h1b
      · exact lt_trans h1b (hy b hb)
    · split
      · rename_i h1 h2; subst h2; exact h
      · rename_i h1 h2
        have hyx : y < x := by
          rcases lt_trichotomy x y with h3 | h3 | h3
          · exact absurd ((sltB_iff x y).mpr h3) h1
          · exact absurd h3 h2
          · exact h3
        refine List.pairwise_cons.mpr ⟨?_, ih hys⟩
        intro b hb
        rcases (mem_sinsert b x ys).mp hb with rfl | hb2
        · exact hyx
        · exact hy b hb2

theorem mem_pinsert (q p : String × String) (l : List (String × String)) :
    q ∈ pinsert p l ↔ q = p ∨ q ∈ l := by
  induction l with
  | nil => simp [pinsert]
  | cons r rs ih =>
    simp only [pinsert]
    split
    · simp
    · split
      · rename_i h1 h2
        subst h2
        simp only [List.mem_cons]
        tauto
      · simp only [List.mem_cons, ih]
        tauto

theorem mem_addVars (vars : List String) (e : Expression) :
    ∀ (vu : List String) (t : String),
      t ∈ addVars vars e vu ↔ t ∈ vu ∨ (t ∈ vars ∧ t ∈ e) := by
  induction e with
  | nil => simp [addVars]
  | cons s rest ih =>
    intro vu t
    show t ∈ addVars vars rest (if s ∈ vars then sinsert s vu else vu) ↔ _
    rw [ih]
    by_cases hs : s ∈ vars
    · simp only [hs, if_pos, mem_sinsert]
      simp only [List.mem_cons]
      constructor
      · rintro ((rfl | h) | h)
        · exact Or.inr ⟨hs, Or.inl rfl⟩
        · exact Or.inl h
        · exact Or.inr ⟨h.1, Or.inr h.2⟩
      · rintro (h | ⟨h1, (rfl | h2)⟩)
        · exact Or.inl (Or.inr h)
        · exact Or.inl (Or.inl rfl)
        · exact Or.inr ⟨h1, h2⟩
    · simp only [hs, if_neg, if_false, List.mem_cons]
      constructor
      · rintro (h | h)
        · exact Or.inl h
        · exact Or.inr ⟨h.1, Or.inr h.2⟩
      · rintro (h | ⟨h1, (rfl | h2)⟩)
        · exact Or.inl h
        · exact absurd h1 hs
        · exact Or.inr ⟨h1, h2⟩

theorem sorted_addVars (vars : List String) (e : Expression) :
    ∀ vu : List String, vu.Pairwise (· < ·) →
      (addVars vars e vu).Pairwise (· < ·) := by
  induction e with
  | nil => intro vu h; simpa [addVars] using h
  | cons s rest ih =>
    intro vu h
    show ((addVars vars rest (if s ∈ vars then sinsert s vu else vu)).Pairwise _)
    by_cases hs : s ∈ vars
    · exact ih _ (by simpa [hs] using sorted_sinsert s vu h)
    · exact ih _ (by simpa [hs] using h)

theorem sinterF_sublist : ∀ (fuel : Nat) (a b : List String),
    (sinterF fuel a b).Sublist a := by
  intro fuel
  induction fuel with
  | zero => intro a b; simp [sinterF]
  | succ f ih =>
    intro a b
    rcases a with _ | ⟨x, xs⟩
    · simp [sinterF]
    · rcases b with _ | ⟨y, ys⟩
      · simp [sinterF]
      · show (if sltB x y then sinterF f xs (y :: ys)
              else if sltB y x then sinterF f (x :: xs) ys
              else x :: sinterF f xs ys).Sublist (x :: xs)
        split
        · exact (ih xs (y :: ys)).cons x
        · split
          · exact ih (x :: xs) ys
          · exact (ih xs ys).cons₂ x

theorem sinter_sublist (a b : List String) : (sinter a b).Sublist a :=
  sinterF_sublist _ a b

theorem notmem_of_lt_sorted (x : String) (l : List String)
    (_hl : l.Pairwise (· < ·)) (h : ∀ z ∈ l, x < z) : x ∉ l := by
  intro hx
  exact absurd (h x hx) (lt_irrefl x)

theorem mem_sinterF : ∀ (fuel : Nat) (a b : List String),
    a.length + b.length ≤ fuel →
    a.Pairwise (· < ·) → b.Pairwise (· < ·) →
    ∀ z, z ∈ sinterF fuel a b ↔ z ∈ a ∧ z ∈ b := by
  intro fuel
  induction fuel with
  | zero =>
    intro a b hlen ha hb z
    have ha0 : a = [] := List.length_eq_zero.mp (by omega)
    subst ha0
    simp [sinterF]
  | succ f ih =>
    intro a b hlen ha hb z
    rcases a with _ | ⟨x, xs⟩
    · simp [sinterF]
    · rcases b with _ | ⟨y, ys⟩
      · simp [sinterF]
      · simp only [List.length_cons] at hlen
        by_cases h1 : sltB x y = true
        · have hlt : x < y := (sltB_iff x y).mp h1
          rcases List.pairwise_cons.mp ha with ⟨hx, hxs⟩
          have hxnot : x ∉ y :: ys := by
            refine notmem_of_lt_sorted x (y :: ys) hb ?_
            intro w hw
            rcases List.mem_cons.mp hw with rfl | hw
            · exact hlt
            · exact lt_trans hlt ((List.pairwise_cons.mp hb).1 w hw)
          rw [show sinterF (f + 1) (x :: xs) (y :: ys) = sinterF f xs (y :: ys) by
                simp [sinterF, h1]]
          rw [ih xs (y :: ys) (by simp only [List.length_cons]; omega) hxs hb z]
          constructor
          · rintro ⟨h3, h4⟩; exact ⟨List.mem_cons_of_mem x h3, h4⟩
          · rintro ⟨h3, h4⟩
            rcases List.mem_cons.mp h3 with rfl | h3
            · exact absurd h4 hxnot
            · exact ⟨h3, h4⟩
        · by_cases h2 : sltB y x = true
          · have hlt : y < x := (sltB_iff y x).mp h2
            rcases List.pairwise_cons.mp hb with ⟨hy, hys⟩
            have hynot : y ∉ x :: xs := by
              refine notmem_of_lt_sorted y (x :: xs) ha ?_
              intro w hw
              rcases List.mem_cons.mp hw with rfl | hw
              · exact hlt
              · exact lt_trans hlt ((List.pairwise_cons.mp ha).1 w hw)
            rw [show sinterF (f + 1) (x :: xs) (y :: ys) = sinterF f (x :: xs) ys by
                  simp [sinterF, h1, h2]]
            rw [ih (x :: xs) ys (by simp only [List.length_cons]; omega) ha hys z]
            constructor
            · rintro ⟨h3, h4⟩; exact ⟨h3, List.mem_cons_of_mem y h4⟩
            · rintro ⟨h3, h4⟩
              rcases List.mem_cons.mp h4 with rfl | h4
              · exact absurd h3 hynot
              · exact ⟨h3, h4⟩
          · have hxy : x = y := by
              rcases lt_trichotomy x y with h3 | h3 | h3
              · exact absurd ((sltB_iff x y).mpr h3) h1
              · exact h3
              · exact absurd ((sltB_iff y x).mpr h3) h2
            subst hxy
            rcases List.pairwise_cons.mp ha with ⟨hx, hxs⟩
            rcases List.pairwise_cons.mp hb with ⟨hy, hys⟩
            rw [show sinterF (f + 1) (x :: xs) (x :: ys) = x :: sinterF f xs ys by
                  simp [sinterF, h1, h2]]
            constructor
            · intro h3
              rcases List.mem_cons.mp h3 with rfl | h3
              · exact ⟨List.mem_cons_self z xs, List.mem_cons_self z ys⟩
              · rcases (ih xs ys (by omega) hxs hys z).mp h3 with ⟨h4, h5⟩
                exact ⟨List.mem_cons_of_mem x h4, List.mem_cons_of_mem x h5⟩
            · rintro ⟨h3, h4⟩
              by_cases hzx : z = x
              · subst hzx; exact List.mem_cons_self z _
              · have h3b : z ∈ xs := (List.mem_cons.mp h3).resolve_left hzx
                have h4b : z ∈ ys := (List.mem_cons.mp h4).resolve_left hzx
                exact List.mem_cons_of_mem x
                  ((ih xs ys (by omega) hxs hys z).mpr ⟨h3b, h4b⟩)

theorem mem_sinter (a b : List String) (ha : a.Pairwise (· < ·))
    (hb : b.Pairwise (· < ·)) (z : String) :
    z ∈ sinter a b ↔ z ∈ a ∧ z ∈ b :=
  mem_sinterF _ a b (le_refl _) ha hb z

theorem mem_pairsOf : ∀ l : List String, l.Pairwise (· < ·) →
    ∀ x y, (x, y) ∈ pairsOf l ↔ x ∈ l ∧ y ∈ l ∧ x < y := by
  intro l
  induction l with
  | nil => simp [pairsOf]
  | cons z zs ih =>
    intro hl x y
    rcases List.pairwise_cons.mp hl with ⟨hz, hzs⟩
    simp only [pairsOf, List.mem_append, List.mem_map]
    rw [ih hzs x y]
    constructor
    · rintro (⟨w, hw, heq⟩ | ⟨h1, h2, h3⟩)
      · cases heq
        exact ⟨List.mem_cons_self z zs, List.mem_cons_of_mem z hw, hz _ hw⟩
      · exact ⟨List.mem_cons_of_mem z h1, List.mem_cons_of_mem z h2, h3⟩
    · rintro ⟨h1, h2, h3⟩
      rcases List.mem_cons.mp h1 with he | h1b
      · subst he
        rcases List.mem_cons.mp h2 with he2 | h2b
        · subst he2; exact absurd h3 (lt_irrefl _)
        · exact Or.inl ⟨y, h2b, rfl⟩
      · rcases List.mem_cons.mp h2 with he2 | h2b
        · subst he2
          exact absurd (lt_trans h3 (hz _ h1b)) (lt_irrefl _)
        · exact Or.inr ⟨h1b, h2b, h3⟩

theorem mem_foldl_pinsert : ∀ (ps : List (String × String))
    (acc : List (String × String)) (q : String × String),
    q ∈ ps.foldl (fun a p => pinsert p a) acc ↔ q ∈ acc ∨ q ∈ ps := by
  intro ps
  induction ps with
  | nil => simp
  | cons p ps ih =>
    intro acc q
    show q ∈ ps.foldl (fun a p => pinsert p a) (pinsert p acc) ↔ _
    rw [ih]
    simp only [mem_pinsert, List.mem_cons]
    tauto

theorem mem_dvGroup (vu g : List String) (acc : List (String × String))
    (q : String × String) :
    q ∈ dvGroup vu g acc ↔ q ∈ acc ∨ q ∈ pairsOf (sinter g vu) := by
  unfold dvGroup
  exact mem_foldl_pinsert _ _ _

theorem mem_dvList : ∀ (gs : List (List String)) (vu : List String)
    (acc : List (String × String)) (q : String × String),
    q ∈ dvList vu gs acc ↔ q ∈ acc ∨ ∃ g ∈ gs, q ∈ pairsOf (sinter g vu) := by
  intro gs
  induction gs with
  | nil => simp [dvList]
  | cons g gs ih =>
    intro vu acc q
    show q ∈ dvList vu gs (dvGroup vu g acc) ↔ _
    rw [ih, mem_dvGroup]
    simp only [List.mem_cons]
    constructor
    · rintro ((h | h) | ⟨g2, hg2, h⟩)
      · exact Or.inl h
      · exact Or.inr ⟨g, Or.inl rfl, h⟩
      · exact Or.inr ⟨g2, Or.inr hg2, h⟩
    · rintro (h | ⟨g2, (rfl | hg2), h⟩)
      · exact Or.inl (Or.inl h)
      · exact Or.inl (Or.inr h)
      · exact Or.inr ⟨g2, hg2, h⟩

theorem mem_dvScopes : ∀ (ss : List Scope) (vu : List String)
    (acc : List (String × String)) (q : String × String),
    q ∈ dvScopes vu ss acc ↔
      q ∈ acc ∨ ∃ g ∈ allGroups ss, q ∈ pairsOf (sinter g vu) := by
  intro ss
  induction ss with
  | nil => simp [dvScopes, allGroups]
  | cons s ss ih =>
    intro vu acc q
    show q ∈ dvScopes vu ss (dvList vu s.disjvars acc) ↔ _
    rw [ih, mem_dvList]
    simp only [allGroups, List.mem_append]
    constructor
    · rintro ((h | ⟨g, hg, h⟩) | ⟨g, hg, h⟩)
      · exact Or.inl h
      · exact Or.inr ⟨g, Or.inl hg, h⟩
      · exact Or.inr ⟨g, Or.inr hg, h⟩
    · rintro (h | ⟨g, (hg | hg), h⟩)
      · exact Or.inl (Or.inl h)
      · exact Or.inl (Or.inr ⟨g, hg, h⟩)
      · exact Or.inr ⟨g, hg, h⟩

theorem contains_true_iff (l : List String) (a : String) :
    l.contains a = true ↔ a ∈ l := by
  simp [List.contains]

theorem contains_false_iff (l : List String) (a : String) :
    l.contains a = false ↔ a ∉ l := by
  rw [← Bool.not_eq_true, contains_true_iff]

/-- Membership in the used-variable set contributed by the active essential
hypotheses of a visit list. -/
def essMem (vars : List String) (tbl : List (String × Hypothesis))
    (W : List String) (t : String) : Prop :=
  t ∈ vars ∧ ∃ l ∈ W, ∃ e, flook l tbl = some (e, false) ∧ t ∈ e

theorem essMem_cons_float (vars : List String)
    (tbl : List (String × Hypothesis)) (x : String) (W : List String)
    (e : Expression) (hfx : flook x tbl = some (e, true)) (t : String) :
    essMem vars tbl (x :: W) t ↔ essMem vars tbl W t := by
  unfold essMem
  constructor
  · rintro ⟨h1, l, hl, e2, hfl, ht⟩
    rcases List.mem_cons.mp hl with heq | hl2
    · subst heq
      rw [hfx] at hfl
      exact absurd (Option.some.injEq _ _ ▸ hfl) (by simp)
    · exact ⟨h1, l, hl2, e2, hfl, ht⟩
  · rintro ⟨h1, l, hl, e2, hfl, ht⟩
    exact ⟨h1, l, List.mem_cons_of_mem x hl, e2, hfl, ht⟩

theorem essMem_cons_ess (vars : List String)
    (tbl : List (String × Hypothesis)) (x : String) (W : List String)
    (e : Expression) (hfx : flook x tbl = some (e, false)) (t : String) :
    essMem vars tbl (x :: W) t ↔ (t ∈ vars ∧ t ∈ e) ∨ essMem vars tbl W t := by
  unfold essMem
  constructor
  · rintro ⟨h1, l, hl, e2, hfl, ht⟩
    rcases List.mem_cons.mp hl with heq | hl2
    · subst heq
      rw [hfx] at hfl
      obtain ⟨he, -⟩ : e2 = e ∧ True := by
        have := Option.some.injEq (e2, false) (e, false) ▸ hfl.symm
        exact ⟨(Prod.mk.injEq _ _ _ _ ▸ this).1, trivial⟩
      subst he
      exact Or.inl ⟨h1, ht⟩
    · exact Or.inr ⟨h1, l, hl2, e2, hfl, ht⟩
  · rintro (⟨h1, ht⟩ | ⟨h1, l, hl, e2, hfl, ht⟩)
    · exact ⟨h1, x, List.mem_cons_self x W, e, hfx, ht⟩
    · exact ⟨h1, l, List.mem_cons_of_mem x hl, e2, hfl, ht⟩

theorem essMem_mem_congr (vars : List String)
    (tbl : List (String × Hypothesis)) (W W2 : List String)
    (h : ∀ l, l ∈ W ↔ l ∈ W2) (t : String) :
    essMem vars tbl W t ↔ essMem vars tbl W2 t := by
  unfold essMem
  constructor
  · rintro ⟨h1, l, hl, rest⟩; exact ⟨h1, l, (h l).mp hl, rest⟩
  · rintro ⟨h1, l, hl, rest⟩; exact ⟨h1, l, (h l).mpr hl, rest⟩

/-- The visit-order condition of the mandatory-hypothesis loop: whenever a
floating hypothesis is visited before an essential hypothesis (i.e. declared
after it), the essential hypothesis does not mention the floating variable.
The parser establishes this for every reachable scope state, because an
essential hypothesis can only use variables that already have an active
floating hypothesis when it is parsed. -/
def visitOrd (tbl : List (String × Hypothesis)) (a b : String) : Prop :=
  ∀ e v e2, flook a tbl = some (e, true) → e[1]? = some v →
    flook b tbl = some (e2, false) → v ∉ e2

theorem mhList_char (vars : List String) (tbl : List (String × Hypothesis)) :
    ∀ (W acc vu acc2 vu2 : List String),
      mhList vars tbl W (acc, vu) = .ok (acc2, vu2) →
      W.Pairwise (visitOrd tbl) →
      acc2 = W.reverse.filter (mandPredVu tbl vu2) ++ acc ∧
      (∀ t, t ∈ vu2 ↔ t ∈ vu ∨ essMem vars tbl W t) ∧
      (vu.Pairwise (· < ·) → vu2.Pairwise (· < ·)) := by
  intro W
  induction W with
  | nil =>
    intro acc vu acc2 vu2 h _
    have h2 : Res.ok (α := List String × List String) (acc, vu) = .ok (acc2, vu2) := h
    obtain ⟨h3, h4⟩ : acc = acc2 ∧ vu = vu2 := by
      have := Res.ok.injEq (α := List String × List String) (acc, vu) (acc2, vu2) ▸ h2
      exact ⟨(Prod.mk.injEq _ _ _ _ ▸ this).1, (Prod.mk.injEq _ _ _ _ ▸ this).2⟩
    subst h3; subst h4
    refine ⟨by simp, ?_, fun h => h⟩
    intro t
    simp [essMem]
  | cons x W2 ih =>
    intro acc vu acc2 vu2 h hp
    rcases List.pairwise_cons.mp hp with ⟨hx, hp2⟩
    have hstep : mhList vars tbl (x :: W2) (acc, vu)
        = match mhStep vars tbl (acc, vu) x with
          | .ok st2 => mhList vars tbl W2 st2
          | .crash c => .crash c := rfl
    rw [hstep] at h
    rcases hfx : flook x tbl with _ | ⟨e, b⟩
    · rw [show mhStep vars tbl (acc, vu) x = .crash .oob by
        simp [mhStep, hfx]] at h
      cases h
    · cases b with
      | false =>
        rw [show mhStep vars tbl (acc, vu) x = .ok (x :: acc, addVars vars e vu) by
          simp [mhStep, hfx]] at h
        obtain ⟨ha, hm, hs⟩ := ih (x :: acc) (addVars vars e vu) acc2 vu2 h hp2
        refine ⟨?_, ?_, ?_⟩
        · rw [ha]
          rw [List.reverse_cons, List.filter_append]
          have hpx : mandPredVu tbl vu2 x = true := by
            simp [mandPredVu, hfx]
          simp [hpx]
        · intro t
          rw [hm t, mem_addVars, essMem_cons_ess vars tbl x W2 e hfx t]
          tauto
        · intro hvu
          exact hs (sorted_addVars vars e vu hvu)
      | true =>
        rcases hgv : e[1]? with _ | v
        · rw [show mhStep vars tbl (acc, vu) x = .crash .oob by
            simp [mhStep, hfx, hgv]] at h
          cases h
        · by_cases hv : v ∈ vu
          · rw [show mhStep vars tbl (acc, vu) x = .ok (x :: acc, vu) by
              simp [mhStep, hfx, hgv, hv]] at h
            obtain ⟨ha, hm, hs⟩ := ih (x :: acc) vu acc2 vu2 h hp2
            refine ⟨?_, ?_, hs⟩
            · rw [ha]
              rw [List.reverse_cons, List.filter_append]
              have hvu2 : v ∈ vu2 := (hm v).mpr (Or.inl hv)
              have hpx : mandPredVu tbl vu2 x = true := by
                simp only [mandPredVu, hfx, hgv]
                exact (contains_true_iff vu2 v).mpr hvu2
              simp [hpx]
            · intro t
              rw [hm t, essMem_cons_float vars tbl x W2 e hfx t]
          · rw [show mhStep vars tbl (acc, vu) x = .ok (acc, vu) by
              simp [mhStep, hfx, hgv, hv]] at h
            obtain ⟨ha, hm, hs⟩ := ih acc vu acc2 vu2 h hp2
            refine ⟨?_, ?_, hs⟩
            · rw [ha]
              rw [List.reverse_cons, List.filter_append]
              have hvu2 : v ∉ vu2 := by
                intro hin
                rcases (hm v).mp hin with h1 | h1
                · exact hv h1
                · rcases h1 with ⟨-, l, hl, e2, hfl, hve⟩
                  exact hx l hl e v e2 hfx hgv hfl hve
              have hpx : mandPredVu tbl vu2 x = false := by
                simp only [mandPredVu, hfx, hgv]
                exact (contains_false_iff vu2 v).mpr hvu2
              simp [hpx]
            · intro t
              rw [hm t, essMem_cons_float vars tbl x W2 e hfx t]

theorem mhList_append (vars : List String) (tbl : List (String × Hypothesis)) :
    ∀ (A B : List String) (st : List String × List String),
      mhList vars tbl (A ++ B) st =
        match mhList vars tbl A st with
        | .ok st2 => mhList vars tbl B st2
        | .crash c => .crash c := by
  intro A
  induction A with
  | nil => intro B st; rfl
  | cons x A2 ih =>
    intro B st
    have hL : mhList vars tbl ((x :: A2) ++ B) st
        = match mhStep vars tbl st x with
          | .ok st2 => mhList vars tbl (A2 ++ B) st2
          | .crash c => .crash c := rfl
    have hR : mhList vars tbl (x :: A2) st
        = match mhStep vars tbl st x with
          | .ok st2 => mhList vars tbl A2 st2
          | .crash c => .crash c := rfl
    rcases hst : mhStep vars tbl st x with st2 | c
    · rw [hL, hR, hst]
      exact ih B st2
    · rw [hL, hR, hst]

/-- The flattened visit order of the mandatory-hypothesis loops: per scope,
the activehyp vector reversed. -/
def flatRev : List Scope → List String
  | [] => []
  | s :: rest => s.activehyp.reverse ++ flatRev rest

theorem flatRev_append : ∀ A B : List Scope,
    flatRev (A ++ B) = flatRev A ++ flatRev B := by
  intro A B
  induction A with
  | nil => rfl
  | cons s A2 ih =>
    show s.activehyp.reverse ++ flatRev (A2 ++ B) = _
    rw [ih]
    simp [flatRev]

theorem mhScopes_eq (vars : List String) (tbl : List (String × Hypothesis)) :
    ∀ (ss : List Scope) (st : List String × List String),
      mhScopes vars tbl ss st = mhList vars tbl (flatRev ss) st := by
  intro ss
  induction ss with
  | nil => intro st; rfl
  | cons s ss2 ih =>
    intro st
    show (match mhList vars tbl s.activehyp.reverse st with
          | .ok st2 => mhScopes vars tbl ss2 st2
          | .crash c => .crash c) = _
    rw [show flatRev (s :: ss2) = s.activehyp.reverse ++ flatRev ss2 from rfl,
        mhList_append]
    rcases mhList vars tbl s.activehyp.reverse st with st2 | c
    · exact ih st2
    · rfl

theorem flatRev_reverse : ∀ ss : List Scope,
    flatRev ss.reverse = (allhyps ss).reverse := by
  intro ss
  induction ss with
  | nil => rfl
  | cons s ss2 ih =>
    rw [List.reverse_cons, flatRev_append, ih]
    show (allhyps ss2).reverse ++ (s.activehyp.reverse ++ flatRev []) =
      (allhyps (s :: ss2)).reverse
    rw [show flatRev [] = [] from rfl, List.append_nil,
        show allhyps (s :: ss2) = s.activehyp ++ allhyps ss2 from rfl,
        List.reverse_append]

/-- The full characterization of constructassertion on a fresh label: the
mandatory-hypothesis list is the declaration-order filter of the active
hypotheses by the used-variable predicate, and there is a canonical
used-variable set vu2 through which both the filter and the mandatory
disjoint-variable pairs are expressed. -/
theorem constructassertion_char (db : DB) (scopes : List Scope)
    (label : String) (exp : Expression) (db2 : DB) (a : Assertion)
    (Hfresh : flook label db.assertions = none)
    (Hord : ((allhyps scopes).reverse).Pairwise (visitOrd db.hypotheses))
    (Hcall : constructassertion db scopes label exp = .ok (db2, a)) :
    ∃ vu2 : List String,
      a.expression = exp ∧
      a.hypotheses = (allhyps scopes).filter (mandPredVu db.hypotheses vu2) ∧
      (∀ t, t ∈ vu2 ↔ (t ∈ db.vars ∧ t ∈ exp) ∨
        essMem db.vars db.hypotheses (allhyps scopes) t) ∧
      vu2.Pairwise (· < ·) ∧
      a.disjvars = dvScopes vu2 scopes [] := by
  unfold constructassertion at Hcall
  rw [Hfresh] at Hcall
  simp only [Option.getD] at Hcall
  rcases hmh : mhScopes db.vars db.hypotheses scopes.reverse
      (Assertion.hypotheses ⟨[], [], []⟩, addVars db.vars exp []) with ⟨mh, vu2⟩ | c
  case crash => rw [hmh] at Hcall; cases Hcall
  rw [hmh] at Hcall
  have ha : a = { hypotheses := mh,
                  disjvars := dvScopes vu2 scopes (Assertion.disjvars ⟨[], [], []⟩),
                  expression := exp } := by
    have := Res.ok.injEq (α := DB × Assertion) _ _ ▸ Hcall
    exact ((Prod.mk.injEq _ _ _ _ ▸ this).2).symm
  rw [mhScopes_eq, flatRev_reverse] at hmh
  obtain ⟨h1, h2, h3⟩ := mhList_char db.vars db.hypotheses
    (allhyps scopes).reverse _ _ _ _ hmh Hord
  refine ⟨vu2, ?_, ?_, ?_, ?_, ?_⟩
  · rw [ha]
  · rw [ha]
    show mh = _
    rw [h1]
    simp
  · intro t
    rw [h2 t, mem_addVars]
    simp only [List.not_mem_nil, false_or]
    constructor
    · rintro (h | h)
      · exact Or.inl h
      · right
        exact (essMem_mem_congr _ _ _ _ (fun l => List.mem_reverse) t).mp h
    · rintro (h | h)
      · exact Or.inl h
      · right
        exact (essMem_mem_congr _ _ _ _ (fun l => List.mem_reverse) t).mpr h
  · exact h3 (sorted_addVars db.vars exp [] (List.Pairwise.nil))
  · rw [ha]

theorem usedVarB_true_iff (tbl : List (String × Hypothesis))
    (scopes : List Scope) (exp : Expression) (v : String) :
    usedVarB tbl scopes exp v = true ↔
      v ∈ exp ∨ ∃ l ∈ allhyps scopes, ∃ e, flook l tbl = some (e, false) ∧ v ∈ e := by
  unfold usedVarB
  rw [Bool.or_eq_true, contains_true_iff, List.any_eq_true]
  constructor
  · rintro (h | ⟨l, hl, hb⟩)
    · exact Or.inl h
    · right
      rcases hfl : flook l tbl with _ | ⟨e, b⟩
      · rw [hfl] at hb; cases hb
      · cases b with
        | false =>
          rw [hfl] at hb
          exact ⟨l, hl, e, hfl, (contains_true_iff e v).mp hb⟩
        | true => rw [hfl] at hb; cases hb
  · rintro (h | ⟨l, hl, e, hfl, hv⟩)
    · exact Or.inl h
    · right
      refine ⟨l, hl, ?_⟩
      rw [hfl]
      exact (contains_true_iff e v).mpr hv

theorem vu2_iff_usedVar (vars : List String)
    (tbl : List (String × Hypothesis)) (scopes : List Scope)
    (exp : Expression) (t : String) :
    ((t ∈ vars ∧ t ∈ exp) ∨ essMem vars tbl (allhyps scopes) t) ↔
      usedVar vars tbl scopes exp t := by
  unfold essMem usedVar
  tauto

/-- C6: constructassertion(label, exp) stores an assertion whose
mandatory-hypothesis list contains, in declaration order (outermost scope
first, declaration order within each scope), every active essential
hypothesis together with exactly those active floating hypotheses whose
variable occurs in exp or in the expression of some active essential
hypothesis; and whose mandatory disjoint-variable pairs are exactly the
pairs (a, b) with a < b drawn from each active disjoint-variable group
intersected with that used-variable set.  The hypotheses record the
well-formedness facts the parser maintains for every reachable state:
the label is fresh, every active hypothesis label resolves, the visit
order never places a floating hypothesis after an essential hypothesis
that uses its variable, floating hypotheses bind declared variables, and
the stored groups are sorted sets. -/
theorem C6_spec (db : DB) (scopes : List Scope) (label : String)
    (exp : Expression) (db2 : DB) (a : Assertion)
    (Hfresh : flook label db.assertions = none)
    (Hord : ((allhyps scopes).reverse).Pairwise (visitOrd db.hypotheses))
    (Hshape : ∀ l e, l ∈ allhyps scopes →
      flook l db.hypotheses = some (e, true) → ∃ v, e[1]? = some v ∧ v ∈ db.vars)
    (Hgroups : ∀ g ∈ allGroups scopes, g.Pairwise (· < ·))
    (Hcall : constructassertion db scopes label exp = .ok (db2, a)) :
    a.hypotheses = (allhyps scopes).filter (mandPred db.hypotheses scopes exp) ∧
    ∀ x y, ((x, y) ∈ a.disjvars ↔
      ∃ g ∈ allGroups scopes, x ∈ g ∧ y ∈ g ∧
        usedVar db.vars db.hypotheses scopes exp x ∧
        usedVar db.vars db.hypotheses scopes exp y ∧ x < y) := by
  obtain ⟨vu2, hexp, hhyps, hmem, hsort, hdv⟩ :=
    constructassertion_char db scopes label exp db2 a Hfresh Hord Hcall
  have hmem2 : ∀ t, t ∈ vu2 ↔ usedVar db.vars db.hypotheses scopes exp t := by
    intro t
    rw [hmem t, vu2_iff_usedVar]
  constructor
  · rw [hhyps]
    apply List.filter_congr
    intro l hl
    rcases hfl : flook l db.hypotheses with _ | ⟨e, b⟩
    · simp [mandPredVu, mandPred, hfl]
    · cases b with
      | false => simp [mandPredVu, mandPred, hfl]
      | true =>
        obtain ⟨v, hv, hvars⟩ := Hshape l e hl hfl
        simp only [mandPredVu, mandPred, hfl, hv]
        rw [Bool.eq_iff_iff, contains_true_iff, usedVarB_true_iff, hmem2 v]
        unfold usedVar
        constructor
        · rintro ⟨-, h⟩; exact h
        · intro h; exact ⟨hvars, h⟩
  · intro x y
    rw [hdv]
    have := mem_dvScopes scopes vu2 (Assertion.disjvars ⟨[], [], []⟩) (x, y)
    rw [this]
    simp only [show Assertion.disjvars ⟨[], [], []⟩ = [] from rfl,
      List.not_mem_nil, false_or]
    constructor
    · rintro ⟨g, hg, hp⟩
      have hgs : g.Pairwise (· < ·) := Hgroups g hg
      have hsint : (sinter g vu2).Pairwise (· < ·) :=
        hgs.sublist (sinter_sublist g vu2)
      obtain ⟨h1, h2, h3⟩ := (mem_pairsOf _ hsint x y).mp hp
      obtain ⟨h1g, h1v⟩ := (mem_sinter g vu2 hgs hsort x).mp h1
      obtain ⟨h2g, h2v⟩ := (mem_sinter g vu2 hgs hsort y).mp h2
      exact ⟨g, hg, h1g, h2g, (hmem2 x).mp h1v, (hmem2 y).mp h2v, h3⟩
    · rintro ⟨g, hg, h1g, h2g, h1u, h2u, hxy⟩
      have hgs : g.Pairwise (· < ·) := Hgroups g hg
      have hsint : (sinter g vu2).Pairwise (· < ·) :=
        hgs.sublist (sinter_sublist g vu2)
      refine ⟨g, hg, (mem_pairsOf _ hsint x y).mpr ⟨?_, ?_, hxy⟩⟩
      · exact (mem_sinter g vu2 hgs hsort x).mpr ⟨h1g, (hmem2 x).mpr h1u⟩
      · exact (mem_sinter g vu2 hgs hsort y).mpr ⟨h2g, (hmem2 y).mpr h2u⟩

/-- Decidable check implying visitOrd, used to discharge concrete
instances. -/
def visitOrdB (tbl : List (String × Hypothesis)) (a b : String) : Bool :=
  match flook a tbl with
  | some (e, true) =>
    match e[1]? with
    | some v =>
      match flook b tbl with
      | some (e2, false) => !e2.contains v
      | _ => true
    | none => true
  | _ => true

theorem visitOrdB_sound (tbl : List (String × Hypothesis)) (a b : String)
    (h : visitOrdB tbl a b = true) : visitOrd tbl a b := by
  intro e v e2 h1 h2 h3
  unfold visitOrdB at h
  simp only [h1, h2, h3] at h
  rw [Bool.not_eq_true'] at h
  exact (contains_false_iff e2 v).mp h

/-- Decidable check implying the floating-hypothesis shape condition, used
to discharge concrete instances. -/
def hypShapeB (db : DB) (scopes : List Scope) : Bool :=
  (allhyps scopes).all (fun l =>
    match flook l db.hypotheses with
    | some (e, true) =>
      match e[1]? with
      | some v => db.vars.contains v
      | none => false
    | _ => true)

theorem hypShapeB_sound (db : DB) (scopes : List Scope)
    (h : hypShapeB db scopes = true) :
    ∀ l e, l ∈ allhyps scopes → flook l db.hypotheses = some (e, true) →
      ∃ v, e[1]? = some v ∧ v ∈ db.vars := by
  intro l e hl hfl
  have h2 := List.all_eq_true.mp h l hl
  simp only [hfl] at h2
  rcases hv : e[1]? with _ | v
  · simp only [hv] at h2
    exact Bool.noConfusion h2
  · simp only [hv] at h2
    exact ⟨v, rfl, (contains_true_iff _ _).mp h2⟩

/-- Bridge for discharging the sorted-groups hypothesis on concrete
states. -/
theorem allGroups_sorted_of_B (ss : List Scope)
    (h : ∀ g ∈ allGroups ss, g.Pairwise (fun a b => sltB a b = true)) :
    ∀ g ∈ allGroups ss, g.Pairwise (· < ·) :=
  fun g hg => (h g hg).imp (fun hb => (sltB_iff _ _).mp hb)

/-- C6 witness: a concrete database with two floating hypotheses, one
essential hypothesis and one disjoint-variable group, where the axiom
"|- y" picks up all three mandatory hypotheses (x through the essential
hypothesis) and the pair (x, y). -/
theorem C6_spec_witness :
    (⟨["wx", "wy", "ess"], [("x", "y")], ["|-", "y"]⟩ : Assertion).hypotheses =
      (allhyps [⟨["x", "y"], ["wx", "wy", "ess"], [["x", "y"]],
          [("x", "wx"), ("y", "wy")]⟩]).filter
        (mandPred [("wx", (["wff", "x"], true)), ("wy", (["wff", "y"], true)),
            ("ess", (["|-", "x"], false))]
          [⟨["x", "y"], ["wx", "wy", "ess"], [["x", "y"]],
            [("x", "wx"), ("y", "wy")]⟩] ["|-", "y"]) ∧
    ("x", "y") ∈
      (⟨["wx", "wy", "ess"], [("x", "y")], ["|-", "y"]⟩ : Assertion).disjvars := by
  have h := C6_spec
    ⟨["wff", "|-"], ["x", "y"],
      [("wx", (["wff", "x"], true)), ("wy", (["wff", "y"], true)),
       ("ess", (["|-", "x"], false))], []⟩
    [⟨["x", "y"], ["wx", "wy", "ess"], [["x", "y"]], [("x", "wx"), ("y", "wy")]⟩]
    "ax" ["|-", "y"]
    ⟨["wff", "|-"], ["x", "y"],
      [("wx", (["wff", "x"], true)), ("wy", (["wff", "y"], true)),
       ("ess", (["|-", "x"], false))],
      [("ax", ⟨["wx", "wy", "ess"], [("x", "y")], ["|-", "y"]⟩)]⟩
    ⟨["wx", "wy", "ess"], [("x", "y")], ["|-", "y"]⟩
    (by decide)
    (List.Pairwise.imp (fun hb => visitOrdB_sound _ _ _ hb) (by decide))
    (hypShapeB_sound _ _ (by decide))
    (allGroups_sorted_of_B _ (by decide))
    (by decide)
  refine ⟨h.1, ?_⟩
  refine ((h.2 "x" "y").mpr ?_)
  refine ⟨["x", "y"], by decide, by decide, by decide, ?_, ?_,
    (sltB_iff "x" "y").mp (by decide)⟩
  · exact ⟨by decide, Or.inr ⟨"ess", by decide, ["|-", "x"], by decide, by decide⟩⟩
  · exact ⟨by decide, Or.inl (by decide)⟩

theorem flook_map_update (k : String) (w : Expression) :
    ∀ (m : List (String × Expression)) (v : String),
      (flook v (m.map (fun kv => if kv.1 = k then (k, w) else kv))).isSome
        = (flook v m).isSome := by
  intro m
  induction m with
  | nil => intro v; rfl
  | cons kv m ih =>
    intro v
    rcases kv with ⟨k2, val2⟩
    by_cases hk : k2 = k
    · subst hk
      simp only [List.map_cons, if_pos rfl]
      show (flook v ((k2, w) :: _)).isSome = (flook v ((k2, val2) :: m)).isSome
      by_cases hv : v = k2
      · simp [flook, hv]
      · simp only [flook, if_neg hv]
        exact ih v
    · simp only [List.map_cons, if_neg hk]
      show (flook v ((k2, val2) :: _)).isSome = (flook v ((k2, val2) :: m)).isSome
      by_cases hv : v = k2
      · simp [flook, hv]
      · simp only [flook, if_neg hv]
        exact ih v

theorem flook_substAdd_mono (k : String) (val : Expression)
    (m : List (String × Expression)) (v : String)
    (h : (flook v m).isSome = true) :
    (flook v (substAdd k val m)).isSome = true := by
  unfold substAdd
  rcases hk : flook k m with _ | old
  · show (flook v ((k, val) :: m)).isSome = true
    by_cases hv : v = k
    · simp [flook, hv]
    · simp only [flook, if_neg hv]
      exact h
  · rw [flook_map_update]
    exact h

theorem flook_substAdd_self (k : String) (val : Expression)
    (m : List (String × Expression)) :
    (flook k (substAdd k val m)).isSome = true := by
  unfold substAdd
  rcases hk : flook k m with _ | old
  · simp [flook]
  · rw [flook_map_update, hk]
    rfl

theorem unifyLoop_subst_keys (tbl : List (String × Hypothesis)) :
    ∀ (hl : List String) (slots : List Expression)
      (subst subst2 : List (String × Expression)),
      unifyLoop tbl hl slots subst = .ok (true, subst2) →
      (∀ v, (flook v subst).isSome = true → (flook v subst2).isSome = true) ∧
      (∀ l ∈ hl, ∀ e v, flook l tbl = some (e, true) → e[1]? = some v →
        (flook v subst2).isSome = true) := by
  intro hl
  induction hl with
  | nil =>
    intro slots subst subst2 h
    have h2 : subst = subst2 := by
      have := Res.ok.injEq (α := Bool × List (String × Expression))
        (true, subst) (true, subst2) ▸ h
      exact (Prod.mk.injEq _ _ _ _ ▸ this).2
    subst h2
    exact ⟨fun v hv => hv, by simp⟩
  | cons l ls ih =>
    intro slots subst subst2 h
    rcases hfl : flook l tbl with _ | ⟨e, b⟩
    · rw [show unifyLoop tbl (l :: ls) slots subst = .crash .oob by
        simp [unifyLoop, hfl]] at h
      cases h
    · cases b with
      | true =>
        rcases slots with _ | ⟨slot, srest⟩
        · rw [show unifyLoop tbl (l :: ls) [] subst = .crash .oob by
            simp [unifyLoop, hfl]] at h
          cases h
        · rcases he0 : e.head? with _ | t0
          · rw [show unifyLoop tbl (l :: ls) (slot :: srest) subst = .crash .oob by
              simp [unifyLoop, hfl, he0]] at h
            cases h
          · rcases hs0 : slot.head? with _ | s0
            · rw [show unifyLoop tbl (l :: ls) (slot :: srest) subst = .crash .oob by
                simp [unifyLoop, hfl, he0, hs0]] at h
              cases h
            · by_cases hts : t0 = s0
              · rcases hv1 : e[1]? with _ | v1
                · rw [show unifyLoop tbl (l :: ls) (slot :: srest) subst = .crash .oob by
                    simp [unifyLoop, hfl, he0, hs0, hts, hv1]] at h
                  cases h
                · rw [show unifyLoop tbl (l :: ls) (slot :: srest) subst
                      = unifyLoop tbl ls srest (substAdd v1 (slot.drop 1) subst) by
                    simp [unifyLoop, hfl, he0, hs0, hts, hv1]] at h
                  obtain ⟨ih1, ih2⟩ := ih srest (substAdd v1 (slot.drop 1) subst) subst2 h
                  constructor
                  · intro v hv
                    exact ih1 v (flook_substAdd_mono v1 (slot.drop 1) subst v hv)
                  · intro l2 hl2 e2 v2 hfl2 hv2
                    rcases List.mem_cons.mp hl2 with heq | hl2b
                    · subst heq
                      rw [hfl] at hfl2
                      have he2 : e = e2 :=
                        (Prod.mk.injEq _ _ _ _ ▸ Option.some.inj hfl2).1
                      subst he2
                      rw [hv1] at hv2
                      have hv12 : v1 = v2 := Option.some.injEq v1 v2 ▸ hv2
                      subst hv12
                      exact ih1 v1 (flook_substAdd_self v1 (slot.drop 1) subst)
                    · exact ih2 l2 hl2b e2 v2 hfl2 hv2
              · rw [show unifyLoop tbl (l :: ls) (slot :: srest) subst
                    = .ok (false, subst) by
                  simp [unifyLoop, hfl, he0, hs0, hts]] at h
                have : false = true := by
                  have := Res.ok.injEq (α := Bool × List (String × Expression))
                    (false, subst) (true, subst2) ▸ h
                  exact (Prod.mk.injEq _ _ _ _ ▸ this).1
                cases this
      | false =>
        rcases slots with _ | ⟨slot, srest⟩
        · rw [show unifyLoop tbl (l :: ls) [] subst = .crash .oob by
            simp [unifyLoop, hfl]] at h
          cases h
        · by_cases hms : makesubstitution subst e = slot
          · rw [show unifyLoop tbl (l :: ls) (slot :: srest) subst
                = unifyLoop tbl ls srest subst by
              simp [unifyLoop, hfl, hms]] at h
            obtain ⟨ih1, ih2⟩ := ih srest subst subst2 h
            refine ⟨ih1, ?_⟩
            intro l2 hl2 e2 v2 hfl2 hv2
            rcases List.mem_cons.mp hl2 with heq | hl2b
            · subst heq
              rw [hfl] at hfl2
              have : (false : Bool) = true := by
                have := Option.some.injEq (e, false) (e2, true) ▸ hfl2
                exact (Prod.mk.injEq _ _ _ _ ▸ this).2
              cases this
            · exact ih2 l2 hl2b e2 v2 hfl2 hv2
          · rw [show unifyLoop tbl (l :: ls) (slot :: srest) subst
                = .ok (false, subst) by
              simp [unifyLoop, hfl, hms]] at h
            have : false = true := by
              have := Res.ok.injEq (α := Bool × List (String × Expression))
                (false, subst) (true, subst2) ▸ h
              exact (Prod.mk.injEq _ _ _ _ ▸ this).1
            cases this

theorem unifyLoop_no_substMiss (tbl : List (String × Hypothesis)) :
    ∀ (hl : List String) (slots : List Expression)
      (subst : List (String × Expression)),
      unifyLoop tbl hl slots subst ≠ .crash .substMiss := by
  intro hl
  induction hl with
  | nil => intro slots subst h; cases h
  | cons l ls ih =>
    intro slots subst h
    rcases hfl : flook l tbl with _ | ⟨e, b⟩
    · rw [show unifyLoop tbl (l :: ls) slots subst = .crash .oob by
        simp [unifyLoop, hfl]] at h
      cases h
    · cases b with
      | true =>
        rcases slots with _ | ⟨slot, srest⟩
        · rw [show unifyLoop tbl (l :: ls) [] subst = .crash .oob by
            simp [unifyLoop, hfl]] at h
          cases h
        · rcases he0 : e.head? with _ | t0
          · rw [show unifyLoop tbl (l :: ls) (slot :: srest) subst = .crash .oob by
              simp [unifyLoop, hfl, he0]] at h
            cases h
          · rcases hs0 : slot.head? with _ | s0
            · rw [show unifyLoop tbl (l :: ls) (slot :: srest) subst = .crash .oob by
                simp [unifyLoop, hfl, he0, hs0]] at h
              cases h
            · by_cases hts : t0 = s0
              · rcases hv1 : e[1]? with _ | v1
                · rw [show unifyLoop tbl (l :: ls) (slot :: srest) subst = .crash .oob by
                    simp [unifyLoop, hfl, he0, hs0, hts, hv1]] at h
                  cases h
                · rw [show unifyLoop tbl (l :: ls) (slot :: srest) subst
                      = unifyLoop tbl ls srest (substAdd v1 (slot.drop 1) subst) by
                    simp [unifyLoop, hfl, he0, hs0, hts, hv1]] at h
                  exact ih srest (substAdd v1 (slot.drop 1) subst) h
              · rw [show unifyLoop tbl (l :: ls) (slot :: srest) subst
                    = .ok (false, subst) by
                  simp [unifyLoop, hfl, he0, hs0, hts]] at h
                cases h
      | false =>
        rcases slots with _ | ⟨slot, srest⟩
        · rw [show unifyLoop tbl (l :: ls) [] subst = .crash .oob by
            simp [unifyLoop, hfl]] at h
          cases h
        · by_cases hms : makesubstitution subst e = slot
          · rw [show unifyLoop tbl (l :: ls) (slot :: srest) subst
                = unifyLoop tbl ls srest subst by
              simp [unifyLoop, hfl, hms]] at h
            exact ih srest subst h
          · rw [show unifyLoop tbl (l :: ls) (slot :: srest) subst
                = .ok (false, subst) by
              simp [unifyLoop, hfl, hms]] at h
            cases h

theorem dvCheck_no_substMiss (dbvars : List String) (scopes : List Scope)
    (subst : List (String × Expression)) :
    ∀ dvs : List (String × String),
      (∀ x y, (x, y) ∈ dvs →
        (flook x subst).isSome = true ∧ (flook y subst).isSome = true) →
      dvCheck dbvars scopes subst dvs ≠ .crash .substMiss := by
  intro dvs
  induction dvs with
  | nil => intro _ h; cases h
  | cons p rest ih =>
    rcases p with ⟨x, y⟩
    intro hcov h
    obtain ⟨hx, hy⟩ := hcov x y (List.mem_cons_self _ _)
    rcases hfx : flook x subst with _ | e1
    · rw [hfx] at hx; cases hx
    · rcases hfy : flook y subst with _ | e2
      · rw [hfy] at hy; cases hy
      · by_cases hall : ((addVars dbvars e1 []).all
            (fun a => (addVars dbvars e2 []).all (fun b => isdvr scopes a b))) = true
        · rw [show dvCheck dbvars scopes subst ((x, y) :: rest)
              = dvCheck dbvars scopes subst rest by
            simp [dvCheck, hfx, hfy, hall]] at h
          exact ih (fun a b hab => hcov a b (List.mem_cons_of_mem _ hab)) h
        · rw [show dvCheck dbvars scopes subst ((x, y) :: rest)
              = .ok false by
            simp only [dvCheck, hfx, hfy]
            rw [if_neg hall]] at h
          cases h

/-- C9: every variable occurring in a mandatory disjoint-variable pair of a
constructed assertion is the variable of some floating hypothesis in that
assertion's mandatory-hypothesis list; consequently, after successful
unification in verifyassertionref, the substitution-map lookups performed by
the disjoint-variable check always find an entry.  The first part is stated
for constructassertion (the only writer of the assertions table) under the
parser-maintained well-formedness hypotheses, whose last clause records that
every mandatorily used variable listed in an active disjoint-variable group
has an active floating hypothesis; the second part shows the
find()->second dereferences of the disjoint-variable check cannot miss. -/
theorem C9_spec :
    (∀ db scopes label exp db2 a,
      flook label db.assertions = none →
      ((allhyps scopes).reverse).Pairwise (visitOrd db.hypotheses) →
      (∀ g ∈ allGroups scopes, g.Pairwise (· < ·)) →
      (∀ v, usedVar db.vars db.hypotheses scopes exp v →
        (∃ g ∈ allGroups scopes, v ∈ g) →
        ∃ l ∈ allhyps scopes, ∃ e, flook l db.hypotheses = some (e, true) ∧
          e[1]? = some v) →
      constructassertion db scopes label exp = .ok (db2, a) →
      ∀ x y, (x, y) ∈ a.disjvars →
        (∃ l ∈ a.hypotheses, ∃ e, flook l db.hypotheses = some (e, true) ∧
          e[1]? = some x) ∧
        (∃ l ∈ a.hypotheses, ∃ e, flook l db.hypotheses = some (e, true) ∧
          e[1]? = some y)) ∧
    (∀ db scopes thlabel reflabel stack A,
      flook reflabel db.assertions = some A →
      (∀ x y, (x, y) ∈ A.disjvars →
        (∃ l ∈ A.hypotheses, ∃ e, flook l db.hypotheses = some (e, true) ∧
          e[1]? = some x) ∧
        (∃ l ∈ A.hypotheses, ∃ e, flook l db.hypotheses = some (e, true) ∧
          e[1]? = some y)) →
      verifyassertionref db scopes thlabel reflabel stack ≠ .crash .substMiss) := by
  constructor
  · intro db scopes label exp db2 a Hfresh Hord Hgroups Hfloat Hcall x y hxy
    obtain ⟨vu2, hexp, hhyps, hmem, hsort, hdv⟩ :=
      constructassertion_char db scopes label exp db2 a Hfresh Hord Hcall
    rw [hdv] at hxy
    rw [mem_dvScopes] at hxy
    rcases hxy with h0 | ⟨g, hg, hp⟩
    · cases h0
    have hgs : g.Pairwise (· < ·) := Hgroups g hg
    have hsint : (sinter g vu2).Pairwise (· < ·) :=
      hgs.sublist (sinter_sublist g vu2)
    obtain ⟨h1, h2, -⟩ := (mem_pairsOf _ hsint x y).mp hp
    obtain ⟨h1g, h1v⟩ := (mem_sinter g vu2 hgs hsort x).mp h1
    obtain ⟨h2g, h2v⟩ := (mem_sinter g vu2 hgs hsort y).mp h2
    have hux : usedVar db.vars db.hypotheses scopes exp x :=
      (vu2_iff_usedVar _ _ _ _ _).mp ((hmem x).mp h1v)
    have huy : usedVar db.vars db.hypotheses scopes exp y :=
      (vu2_iff_usedVar _ _ _ _ _).mp ((hmem y).mp h2v)
    obtain ⟨lx, hlx, ex, hfex, hvex⟩ := Hfloat x hux ⟨g, hg, h1g⟩
    obtain ⟨ly, hly, ey, hfey, hvey⟩ := Hfloat y huy ⟨g, hg, h2g⟩
    constructor
    · refine ⟨lx, ?_, ex, hfex, hvex⟩
      rw [hhyps]
      refine List.mem_filter.mpr ⟨hlx, ?_⟩
      simp only [mandPredVu, hfex, hvex]
      exact (contains_true_iff vu2 x).mpr h1v
    · refine ⟨ly, ?_, ey, hfey, hvey⟩
      rw [hhyps]
      refine List.mem_filter.mpr ⟨hly, ?_⟩
      simp only [mandPredVu, hfey, hvey]
      exact (contains_true_iff vu2 y).mpr h2v
  · intro db scopes thlabel reflabel stack A hA hcov h
    simp only [verifyassertionref, hA] at h
    by_cases hlen : stack.length < A.hypotheses.length
    · rw [if_pos hlen] at h
      cases h
    · rw [if_neg hlen] at h
      rcases hu : unifyLoop db.hypotheses A.hypotheses
          (stack.drop (stack.length - A.hypotheses.length)) [] with ⟨b, subst⟩ | c
      · cases b with
        | false =>
          simp only [hu] at h
          cases h
        | true =>
          simp only [hu] at h
          obtain ⟨-, hkeys⟩ := unifyLoop_subst_keys db.hypotheses A.hypotheses
            (stack.drop (stack.length - A.hypotheses.length)) [] subst hu
          have hcov2 : ∀ x y, (x, y) ∈ A.disjvars →
              (flook x subst).isSome = true ∧ (flook y subst).isSome = true := by
            intro x y hxy
            obtain ⟨⟨lx, hlx, ex, hfex, hvex⟩, ⟨ly, hly, ey, hfey, hvey⟩⟩ :=
              hcov x y hxy
            exact ⟨hkeys lx hlx ex x hfex hvex, hkeys ly hly ey y hfey hvey⟩
          rcases hd : dvCheck db.vars scopes subst A.disjvars with b2 | c2
          · cases b2 with
            | false => simp only [hd] at h; cases h
            | true => simp only [hd] at h; cases h
          · simp only [hd] at h
            have hc2 : c2 = .substMiss := by
              cases h
              rfl
            subst hc2
            exact dvCheck_no_substMiss db.vars scopes subst A.disjvars hcov2 hd
      · simp only [hu] at h
        have hc : c = .substMiss := by
          cases h
          rfl
        subst hc
        exact unifyLoop_no_substMiss db.hypotheses A.hypotheses
          (stack.drop (stack.length - A.hypotheses.length)) [] hu

/-- C9 witness: in the concrete database of the C6 witness, the assertion
"ax" carries the pair (x, y), both variables are bound by the mandatory
floating hypotheses wx and wy, and the disjoint-variable check of a step
referencing "ax" cannot miss a substitution entry. -/
theorem C9_spec_witness :
    verifyassertionref
      ⟨["wff", "|-"], ["x", "y"],
        [("wx", (["wff", "x"], true)), ("wy", (["wff", "y"], true)),
         ("ess", (["|-", "x"], false))],
        [("ax", ⟨["wx", "wy", "ess"], [("x", "y")], ["|-", "y"]⟩)]⟩
      [⟨["x", "y"], ["wx", "wy", "ess"], [["x", "y"]],
        [("x", "wx"), ("y", "wy")]⟩]
      "th" "ax" [] ≠ .crash .substMiss := by
  have hcov := C9_spec.1
    ⟨["wff", "|-"], ["x", "y"],
      [("wx", (["wff", "x"], true)), ("wy", (["wff", "y"], true)),
       ("ess", (["|-", "x"], false))], []⟩
    [⟨["x", "y"], ["wx", "wy", "ess"], [["x", "y"]],
      [("x", "wx"), ("y", "wy")]⟩]
    "ax" ["|-", "y"]
    ⟨["wff", "|-"], ["x", "y"],
      [("wx", (["wff", "x"], true)), ("wy", (["wff", "y"], true)),
       ("ess", (["|-", "x"], false))],
      [("ax", ⟨["wx", "wy", "ess"], [("x", "y")], ["|-", "y"]⟩)]⟩
    ⟨["wx", "wy", "ess"], [("x", "y")], ["|-", "y"]⟩
    (by decide)
    (List.Pairwise.imp (fun hb => visitOrdB_sound _ _ _ hb) (by decide))
    (allGroups_sorted_of_B _ (by decide))
    (by
      intro v huse _hg
      rcases huse with ⟨hv, -⟩
      rcases List.mem_cons.mp hv with h | h
      · subst h
        exact ⟨"wx", by decide, ["wff", "x"], by decide, by decide⟩
      · rcases List.mem_cons.mp h with h2 | h2
        · subst h2
          exact ⟨"wy", by decide, ["wff", "y"], by decide, by decide⟩
        · cases h2)
    (by decide)
  exact C9_spec.2
    ⟨["wff", "|-"], ["x", "y"],
      [("wx", (["wff", "x"], true)), ("wy", (["wff", "y"], true)),
       ("ess", (["|-", "x"], false))],
      [("ax", ⟨["wx", "wy", "ess"], [("x", "y")], ["|-", "y"]⟩)]⟩
    [⟨["x", "y"], ["wx", "wy", "ess"], [["x", "y"]],
      [("x", "wx"), ("y", "wy")]⟩]
    "th" "ax" []
    ⟨["wx", "wy", "ess"], [("x", "y")], ["|-", "y"]⟩
    (by decide) hcov

/-- C4 counterexample: the claim states that decoding the compressed-proof
string "UA" produces the single number 26; the decoder actually emits
20 * 1 + 1 = 21 (U contributes num = 1, then A adds 1). -/
theorem C4_counterexample : getproofnumbers ("th") ("UA") ≠ Except.ok [26] := by
  intro h
  have h2 : getproofnumbers ("th") ("UA") = Except.ok [21] := rfl
  rw [h2] at h
  injection h with h3
  exact absurd h3 (by decide)

/-- C4 amended: decoding the compressed-proof string "UA" with
getproofnumbers succeeds and produces the single number 21. -/
theorem C4_spec : getproofnumbers ("th") ("UA") = Except.ok [21] := rfl

/-- C5 counterexample: with an outer and an inner scope both holding a
floating hypothesis for x, getfloatinghyp returns the OUTER label (the C++
iterates the scope vector from begin(), the outermost scope, to end()), not
the innermost one the claim promises.  The last list element is the
innermost scope. -/
theorem C5_counterexample :
    getfloatinghyp
      [⟨["x"], ["louter"], [], [("x", "louter")]⟩,
       ⟨["x"], ["linner"], [], [("x", "linner")]⟩] "x" = "louter" ∧
    "louter" ≠ "linner" := by
  exact ⟨rfl, by decide⟩

/-- C5 amended: for every scope-stack state, getfloatinghyp(var) returns the
label from the OUTERMOST scope whose floating-hyp map contains var (the
empty string if no scope does); when two scopes both have an entry for var,
the outermost one is returned. -/
theorem C5_spec :
    (∀ (pre : List Scope) (s : Scope) (post : List Scope) (var l : String),
      (∀ s2 ∈ pre, flook var s2.floatinghyp = none) →
      flook var s.floatinghyp = some l →
      getfloatinghyp (pre ++ s :: post) var = l) ∧
    (∀ (scopes : List Scope) (var : String),
      (∀ s ∈ scopes, flook var s.floatinghyp = none) →
      getfloatinghyp scopes var = "") := by
  constructor
  · intro pre
    induction pre with
    | nil =>
      intro s post var l _ hs
      show getfloatinghyp (s :: post) var = l
      simp [getfloatinghyp, hs]
    | cons s0 pre2 ih =>
      intro s post var l hpre hs
      have h0 : flook var s0.floatinghyp = none :=
        hpre s0 (List.mem_cons_self _ _)
      show getfloatinghyp (s0 :: (pre2 ++ s :: post)) var = l
      simp only [getfloatinghyp, h0]
      exact ih s post var l (fun s2 h => hpre s2 (List.mem_cons_of_mem _ h)) hs
  · intro scopes
    induction scopes with
    | nil => intro var _; rfl
    | cons s0 rest ih =>
      intro var h
      have h0 : flook var s0.floatinghyp = none :=
        h s0 (List.mem_cons_self _ _)
      simp only [getfloatinghyp, h0]
      exact ih var (fun s2 h2 => h s2 (List.mem_cons_of_mem _ h2))

/-- C5 witness: with an empty outer scope and an inner scope binding x to
wx, the lookup walks past the outer scope and returns wx. -/
theorem C5_spec_witness :
    getfloatinghyp
      [⟨[], [], [], []⟩, ⟨["x"], ["wx"], [], [("x", "wx")]⟩] "x" = "wx" :=
  C5_spec.1 [⟨[], [], [], []⟩] ⟨["x"], ["wx"], [], [("x", "wx")]⟩ [] "x" "wx"
    (by
      intro s2 h
      rcases List.mem_cons.mp h with rfl | h2
      · rfl
      · cases h2)
    rfl

/-- C3: in verifycompressedproof with M mandatory hypotheses, N list labels
and a saved-steps list, one decoded number k acts as follows.  k = 0 appends
a copy of the current stack top to saved-steps without altering the stack;
1 ≤ k ≤ M pushes the expression of mandatory hypothesis k (1-based);
M < k ≤ M+N treats list label k−M as a proof step (push if hypothesis,
assertion-reference step otherwise); M+N < k ≤ M+N+|saved| pushes a copy of
saved step k−M−N; any larger k fails with the "is too high" diagnostic. -/
theorem C3_spec (db : DB) (scopes : List Scope) (label : String)
    (thrm : Assertion) (labels : List String) (k : Nat)
    (stack saved : List Expression) :
    (k = 0 → ∀ top, stack.getLast? = some top →
      cstep db scopes label thrm labels k stack saved =
        .ok (true, stack, saved ++ [top], [])) ∧
    (1 ≤ k → k ≤ thrm.hypotheses.length →
      ∀ hl hyp, thrm.hypotheses[k - 1]? = some hl →
        flook hl db.hypotheses = some hyp →
        cstep db scopes label thrm labels k stack saved =
          .ok (true, stack ++ [hyp.1], saved, [])) ∧
    (thrm.hypotheses.length < k → k ≤ thrm.hypotheses.length + labels.length →
      ∀ proofstep, labels[k - thrm.hypotheses.length - 1]? = some proofstep →
        (∀ hyp, flook proofstep db.hypotheses = some hyp →
          cstep db scopes label thrm labels k stack saved =
            .ok (true, stack ++ [hyp.1], saved, [])) ∧
        (flook proofstep db.hypotheses = none →
          cstep db scopes label thrm labels k stack saved =
            (match verifyassertionref db scopes label proofstep stack with
             | .crash c => .crash c
             | .ok (b, stack2, m) => .ok (b, stack2, saved, m)))) ∧
    (thrm.hypotheses.length + labels.length < k →
      k ≤ thrm.hypotheses.length + labels.length + saved.length →
      ∀ e, saved[k - thrm.hypotheses.length - labels.length - 1]? = some e →
        cstep db scopes label thrm labels k stack saved =
          .ok (true, stack ++ [e], saved, [])) ∧
    (thrm.hypotheses.length + labels.length + saved.length < k →
      cstep db scopes label thrm labels k stack saved =
        .ok (false, stack, saved,
          ["Number in compressed proof of " ++ label ++ " is too high"])) := by
  refine ⟨?_, ?_, ?_, ?_, ?_⟩
  · intro hk top htop
    subst hk
    simp [cstep, htop]
  · intro h1 h2 hl hyp hget hflook
    have hk0 : ¬ k = 0 := by omega
    simp [cstep, hk0, h2, hget, hflook]
  · intro h1 h2 proofstep hget
    have hk0 : ¬ k = 0 := by omega
    have hnm : ¬ k ≤ thrm.hypotheses.length := by omega
    have hlt : k ≤ thrm.hypotheses.length + labels.length := h2
    constructor
    · intro hyp hflook
      simp [cstep, hk0, hnm, hlt, hget, hflook]
    · intro hflook
      simp [cstep, hk0, hnm, hlt, hget, hflook]
  · intro h1 h2 e hget
    have hk0 : ¬ k = 0 := by omega
    have hnm : ¬ k ≤ thrm.hypotheses.length := by omega
    have hnl : ¬ k ≤ thrm.hypotheses.length + labels.length := by omega
    have hns : ¬ k > thrm.hypotheses.length + labels.length + saved.length := by
      omega
    have heq : k - (thrm.hypotheses.length + labels.length) - 1
        = k - thrm.hypotheses.length - labels.length - 1 := by omega
    simp [cstep, hk0, hnm, hnl, hns, heq, hget]
  · intro h1
    have hk0 : ¬ k = 0 := by omega
    have hnm : ¬ k ≤ thrm.hypotheses.length := by omega
    have hnl : ¬ k ≤ thrm.hypotheses.length + labels.length := by omega
    have hhi : k > thrm.hypotheses.length + labels.length + saved.length := h1
    simp [cstep, hk0, hnm, hnl, hhi]

/-- C3 witness: one concrete state (M = 1 mandatory hypothesis, N = 2 list
labels, one saved step) exercising every branch: the save marker k = 0, a
mandatory-hypothesis push k = 1, a label-list hypothesis push k = 2, a
label-list assertion-reference step k = 3, a saved-step push k = 4, and the
too-high failure k = 5. -/
theorem C3_spec_witness :
    cstep ⟨[], [], [("h1", (["wff"], true)), ("h2", (["wff", "x"], false))],
        [("axA", ⟨[], [], ["wff", "a"]⟩)]⟩ [] "th" ⟨["h1"], [], ["wff"]⟩
        ["h2", "axA"] 0 [["wff"]] [["wff"]] =
      .ok (true, [["wff"]], [["wff"], ["wff"]], []) ∧
    cstep ⟨[], [], [("h1", (["wff"], true)), ("h2", (["wff", "x"], false))],
        [("axA", ⟨[], [], ["wff", "a"]⟩)]⟩ [] "th" ⟨["h1"], [], ["wff"]⟩
        ["h2", "axA"] 1 [["wff"]] [["wff"]] =
      .ok (true, [["wff"], ["wff"]], [["wff"]], []) ∧
    cstep ⟨[], [], [("h1", (["wff"], true)), ("h2", (["wff", "x"], false))],
        [("axA", ⟨[], [], ["wff", "a"]⟩)]⟩ [] "th" ⟨["h1"], [], ["wff"]⟩
        ["h2", "axA"] 2 [["wff"]] [["wff"]] =
      .ok (true, [["wff"], ["wff", "x"]], [["wff"]], []) ∧
    cstep ⟨[], [], [("h1", (["wff"], true)), ("h2", (["wff", "x"], false))],
        [("axA", ⟨[], [], ["wff", "a"]⟩)]⟩ [] "th" ⟨["h1"], [], ["wff"]⟩
        ["h2", "axA"] 3 [["wff"]] [["wff"]] =
      .ok (true, [["wff"], ["wff", "a"]], [["wff"]], []) ∧
    cstep ⟨[], [], [("h1", (["wff"], true)), ("h2", (["wff", "x"], false))],
        [("axA", ⟨[], [], ["wff", "a"]⟩)]⟩ [] "th" ⟨["h1"], [], ["wff"]⟩
        ["h2", "axA"] 4 [["wff"]] [["wff"]] =
      .ok (true, [["wff"], ["wff"]], [["wff"]], []) ∧
    cstep ⟨[], [], [("h1", (["wff"], true)), ("h2", (["wff", "x"], false))],
        [("axA", ⟨[], [], ["wff", "a"]⟩)]⟩ [] "th" ⟨["h1"], [], ["wff"]⟩
        ["h2", "axA"] 5 [["wff"]] [["wff"]] =
      .ok (false, [["wff"]], [["wff"]],
        ["Number in compressed proof of th is too high"]) := by
  refine ⟨?_, ?_, ?_, ?_, ?_, ?_⟩
  · exact (C3_spec _ _ _ _ _ 0 _ _).1 rfl ["wff"] rfl
  · exact (C3_spec _ _ _ _ _ 1 _ _).2.1 (by decide) (by decide)
      "h1" (["wff"], true) rfl rfl
  · exact ((C3_spec _ _ _ _ _ 2 _ _).2.2.1 (by decide) (by decide)
      "h2" rfl).1 (["wff", "x"], false) rfl
  · exact (((C3_spec
      ⟨[], [], [("h1", (["wff"], true)), ("h2", (["wff", "x"], false))],
        [("axA", ⟨[], [], ["wff", "a"]⟩)]⟩ [] "th" ⟨["h1"], [], ["wff"]⟩
      ["h2", "axA"] 3 [["wff"]] [["wff"]]).2.2.1 (by decide) (by decide)
      "axA" rfl).2 rfl).trans (by decide)
  · exact (C3_spec _ _ _ _ _ 4 _ _).2.2.2.1 (by decide) (by decide) ["wff"] rfl
  · exact (C3_spec _ _ _ _ _ 5 _ _).2.2.2.2 (by decide)

/-- C1: when a proof's final stack holds exactly one expression differing
from the theorem's expression, the "proves wrong statement" diagnostic is
emitted yet verifyregularproof / verifycompressedproof still return true;
and a whole run over a database whose theorem proves the wrong statement
exits with code 0, the diagnostic among its messages. -/
theorem C1_spec :
    (∀ (db : DB) (scopes : List Scope) (label : String) (thrm : Assertion)
       (proof : List String) (e : Expression) (msgs : List String),
      regLoop db scopes label proof [] [] = .ok (true, [e], msgs) →
      e ≠ thrm.expression →
      verifyregularproof db scopes label thrm proof =
        .ok (true, msgs ++
          ["Proof of theorem " ++ label ++ " proves wrong statement"])) ∧
    (∀ (db : DB) (scopes : List Scope) (label : String) (thrm : Assertion)
       (labels : List String) (nums : List Nat) (e : Expression)
       (saved : List Expression) (msgs : List String),
      cLoop db scopes label thrm labels nums [] [] [] =
        .ok (true, [e], saved, msgs) →
      e ≠ thrm.expression →
      verifycompressedproof db scopes label thrm labels nums =
        .ok (true, msgs ++
          ["Proof of theorem " ++ label ++ " proves wrong statement"])) ∧
    run (fun _ => none) 100 ("db.mm")
        ("$c wff a b $. th1 $a wff a $. th2 $p wff b $= th1 $.") =
      some (.ok (0, ["Proof of theorem th2 proves wrong statement"])) := by
  refine ⟨?_, ?_, by decide⟩
  · intro db scopes label thrm proof e msgs h1 h2
    simp only [verifyregularproof, h1]
    simp [h2]
  · intro db scopes label thrm labels nums e saved msgs h1 h2
    simp only [verifycompressedproof, h1]
    simp [h2]

/-- C1 witness: a database with the single axiom "wff a"; the theorem th2
claims "wff b" but its proof leaves "wff a" on the stack, and the regular
verifier still returns true with the diagnostic. -/
theorem C1_spec_witness :
    verifyregularproof
      ⟨["wff"], [], [], [("th1", ⟨[], [], ["wff", "a"]⟩)]⟩ [] "th2"
      ⟨[], [], ["wff", "b"]⟩ ["th1"] =
      .ok (true, ["Proof of theorem th2 proves wrong statement"]) :=
  C1_spec.1 ⟨["wff"], [], [], [("th1", ⟨[], [], ["wff", "a"]⟩)]⟩ [] "th2"
    ⟨[], [], ["wff", "b"]⟩ ["th1"] ["wff", "a"] [] (by decide) (by decide)

/-- C2 counterexample: the claim demands that verification fail unless the
final stack equals [theorem expression]; here the proof of th2 ends with
the single expression "wff a", different from the claimed "wff b", and
verifyregularproof nevertheless returns true. -/
theorem C2_counterexample :
    regLoop ⟨["wff"], [], [], [("th1", ⟨[], [], ["wff", "a"]⟩)]⟩ [] "th2"
        ["th1"] [] [] = .ok (true, [["wff", "a"]], []) ∧
    (["wff", "a"] : Expression) ≠ ["wff", "b"] ∧
    verifyregularproof ⟨["wff"], [], [], [("th1", ⟨[], [], ["wff", "a"]⟩)]⟩ []
        "th2" ⟨[], [], ["wff", "b"]⟩ ["th1"] =
      .ok (true, ["Proof of theorem th2 proves wrong statement"]) := by
  refine ⟨by decide, by decide, by decide⟩

/-- C2 amended: verification fails unless, after all proof steps are
processed, the stack contains exactly one element; whether that element
equals the theorem's expression is only diagnosed ("proves wrong
statement") and does not affect the returned flag. -/
theorem C2_spec :
    (∀ (db : DB) (scopes : List Scope) (label : String) (thrm : Assertion)
       (proof : List String),
      (∃ msgs, verifyregularproof db scopes label thrm proof =
        .ok (true, msgs)) ↔
      (∃ e msgs2, regLoop db scopes label proof [] [] =
        .ok (true, [e], msgs2))) ∧
    (∀ (db : DB) (scopes : List Scope) (label : String) (thrm : Assertion)
       (labels : List String) (nums : List Nat),
      (∃ msgs, verifycompressedproof db scopes label thrm labels nums =
        .ok (true, msgs)) ↔
      (∃ e saved msgs2, cLoop db scopes label thrm labels nums [] [] [] =
        .ok (true, [e], saved, msgs2))) := by
  constructor
  · intro db scopes label thrm proof
    constructor
    · rintro ⟨msgs, h⟩
      rcases hr : regLoop db scopes label proof [] [] with ⟨b, stack, m⟩ | c
      · cases b with
        | false =>
          simp only [verifyregularproof, hr] at h
          cases h
        | true =>
          rcases stack with _ | ⟨e1, rest⟩
          · simp only [verifyregularproof, hr] at h
            cases h
          · rcases rest with _ | ⟨e2, rest2⟩
            · exact ⟨e1, m, rfl⟩
            · simp only [verifyregularproof, hr] at h
              cases h
      · simp only [verifyregularproof, hr] at h
        cases h
    · rintro ⟨e, m, hr⟩
      simp only [verifyregularproof, hr]
      by_cases he : e = thrm.expression
      · exact ⟨m, by simp [he]⟩
      · exact ⟨m ++ ["Proof of theorem " ++ label ++ " proves wrong statement"],
          by simp [he]⟩
  · intro db scopes label thrm labels nums
    constructor
    · rintro ⟨msgs, h⟩
      rcases hr : cLoop db scopes label thrm labels nums [] [] []
        with ⟨b, stack, saved, m⟩ | c
      · cases b with
        | false =>
          simp only [verifycompressedproof, hr] at h
          cases h
        | true =>
          rcases stack with _ | ⟨e1, rest⟩
          · simp only [verifycompressedproof, hr] at h
            cases h
          · rcases rest with _ | ⟨e2, rest2⟩
            · exact ⟨e1, saved, m, rfl⟩
            · simp only [verifycompressedproof, hr] at h
              cases h
      · simp only [verifycompressedproof, hr] at h
        cases h
    · rintro ⟨e, saved, m, hr⟩
      simp only [verifycompressedproof, hr]
      by_cases he : e = thrm.expression
      · exact ⟨m, by simp [he]⟩
      · exact ⟨m ++ ["Proof of theorem " ++ label ++ " proves wrong statement"],
          by simp [he]⟩

theorem zGood_mono (suf : List Nat) (h : zGood false suf) (b : Bool) :
    zGood b suf := by
  rcases suf with _ | ⟨k, rest⟩
  · trivial
  · obtain ⟨h1, h2⟩ := h
    exact ⟨fun hk => absurd (h1 hk) (by simp), h2⟩

theorem gpnAux_zGood (lab : String) :
    ∀ (chars : List Char) (num : Nat) (jgn : Bool) (acc out : List Nat),
      (∀ c ∈ chars, 'A' ≤ c ∧ c ≤ 'Z') →
      getproofnumbersAux lab chars num jgn acc = .ok out →
      ∃ suf, out = acc ++ suf ∧ zGood jgn suf := by
  intro chars
  induction chars with
  | nil =>
    intro num jgn acc out _ h
    by_cases hn : num ≠ 0
    · simp only [getproofnumbersAux, if_pos hn] at h
      cases h
    · simp only [getproofnumbersAux, if_neg hn] at h
      injection h with h2
      exact ⟨[], by simp [h2.symm], trivial⟩
  | cons c rest ih =>
    intro num jgn acc out hchars h
    obtain ⟨hA, hZ⟩ := hchars c (List.mem_cons_self _ _)
    have hrest : ∀ c2 ∈ rest, 'A' ≤ c2 ∧ c2 ≤ 'Z' :=
      fun c2 h2 => hchars c2 (List.mem_cons_of_mem _ h2)
    by_cases hT : c ≤ 'T'
    · by_cases hov : num > sizeMax / 20 ∨ 20 * num > sizeMax - (c.toNat - ('A'.toNat - 1))
      · rw [show getproofnumbersAux lab (c :: rest) num jgn acc
            = .error ("Overflow computing numbers in compressed proof of " ++ lab) by
          simp only [getproofnumbersAux, if_pos hT]
          rw [if_pos (by simpa using hov)]] at h
        cases h
      · rw [show getproofnumbersAux lab (c :: rest) num jgn acc
            = getproofnumbersAux lab rest 0 true
                (acc ++ [20 * num + (c.toNat - ('A'.toNat - 1))]) by
          simp only [getproofnumbersAux, if_pos hT]
          rw [if_neg (by simpa using hov)]] at h
        obtain ⟨suf, hout, hgood⟩ := ih 0 true _ out hrest h
        have hvne : 20 * num + (c.toNat - ('A'.toNat - 1)) ≠ 0 := by
          have : 'A'.toNat ≤ c.toNat := hA
          have h65 : 'A'.toNat = 65 := rfl
          omega
        refine ⟨(20 * num + (c.toNat - ('A'.toNat - 1))) :: suf, by simp [hout], ?_⟩
        refine ⟨fun hv => absurd hv hvne, ?_⟩
        rw [decide_eq_true hvne]
        exact hgood
    · by_cases hY : c ≤ 'Y'
      · by_cases hov : num > sizeMax / 5 ∨ 5 * num > sizeMax - (c.toNat - 'T'.toNat)
        · rw [show getproofnumbersAux lab (c :: rest) num jgn acc
              = .error ("Overflow computing numbers in compressed proof of " ++ lab) by
            simp only [getproofnumbersAux, if_neg hT, if_pos hY]
            rw [if_pos (by simpa using hov)]] at h
          cases h
        · rw [show getproofnumbersAux lab (c :: rest) num jgn acc
              = getproofnumbersAux lab rest (5 * num + (c.toNat - 'T'.toNat)) false acc by
            simp only [getproofnumbersAux, if_neg hT, if_pos hY]
            rw [if_neg (by simpa using hov)]] at h
          obtain ⟨suf, hout, hgood⟩ := ih _ false acc out hrest h
          exact ⟨suf, hout, zGood_mono suf hgood jgn⟩
      · by_cases hj : jgn = true
        · rw [show getproofnumbersAux lab (c :: rest) num jgn acc
              = getproofnumbersAux lab rest num false (acc ++ [0]) by
            simp only [getproofnumbersAux, if_neg hT, if_neg hY]
            rw [if_neg (by simp [hj])]] at h
          obtain ⟨suf, hout, hgood⟩ := ih num false _ out hrest h
          refine ⟨0 :: suf, by simp [hout], ?_⟩
          refine ⟨fun _ => hj, ?_⟩
          rw [show decide ((0 : Nat) ≠ 0) = false by decide]
          exact hgood
        · rw [show getproofnumbersAux lab (c :: rest) num jgn acc
              = .error ("Stray Z found in compressed proof of " ++ lab) by
            simp only [getproofnumbersAux, if_neg hT, if_neg hY]
            rw [if_pos (by simp [hj])]] at h
          cases h

theorem unifyLoop_no_top (tbl : List (String × Hypothesis)) :
    ∀ (hl : List String) (slots : List Expression)
      (subst : List (String × Expression)),
      unifyLoop tbl hl slots subst ≠ .crash .top := by
  intro hl
  induction hl with
  | nil => intro slots subst h; cases h
  | cons l ls ih =>
    intro slots subst h
    rcases hfl : flook l tbl with _ | ⟨e, b⟩
    · rw [show unifyLoop tbl (l :: ls) slots subst = .crash .oob by
        simp [unifyLoop, hfl]] at h
      cases h
    · cases b with
      | true =>
        rcases slots with _ | ⟨slot, srest⟩
        · rw [show unifyLoop tbl (l :: ls) [] subst = .crash .oob by
            simp [unifyLoop, hfl]] at h
          cases h
        · rcases he0 : e.head? with _ | t0
          · rw [show unifyLoop tbl (l :: ls) (slot :: srest) subst = .crash .oob by
              simp [unifyLoop, hfl, he0]] at h
            cases h
          · rcases hs0 : slot.head? with _ | s0
            · rw [show unifyLoop tbl (l :: ls) (slot :: srest) subst = .crash .oob by
                simp [unifyLoop, hfl, he0, hs0]] at h
              cases h
            · by_cases hts : t0 = s0
              · rcases hv1 : e[1]? with _ | v1
                · rw [show unifyLoop tbl (l :: ls) (slot :: srest) subst = .crash .oob by
                    simp [unifyLoop, hfl, he0, hs0, hts, hv1]] at h
                  cases h
                · rw [show unifyLoop tbl (l :: ls) (slot :: srest) subst
                      = unifyLoop tbl ls srest (substAdd v1 (slot.drop 1) subst) by
                    simp [unifyLoop, hfl, he0, hs0, hts, hv1]] at h
                  exact ih srest (substAdd v1 (slot.drop 1) subst) h
              · rw [show unifyLoop tbl (l :: ls) (slot :: srest) subst
                    = .ok (false, subst) by
                  simp [unifyLoop, hfl, he0, hs0, hts]] at h
                cases h
      | false =>
        rcases slots with _ | ⟨slot, srest⟩
        · rw [show unifyLoop tbl (l :: ls) [] subst = .crash .oob by
            simp [unifyLoop, hfl]] at h
          cases h
        · by_cases hms : makesubstitution subst e = slot
          · rw [show unifyLoop tbl (l :: ls) (slot :: srest) subst
                = unifyLoop tbl ls srest subst by
              simp [unifyLoop, hfl, hms]] at h
            exact ih srest subst h
          · rw [show unifyLoop tbl (l :: ls) (slot :: srest) subst
                = .ok (false, subst) by
              simp [unifyLoop, hfl, hms]] at h
            cases h

theorem dvCheck_no_top (dbvars : List String) (scopes : List Scope)
    (subst : List (String × Expression)) :
    ∀ dvs : List (String × String),
      dvCheck dbvars scopes subst dvs ≠ .crash .top := by
  intro dvs
  induction dvs with
  | nil => intro h; cases h
  | cons p rest ih =>
    rcases p with ⟨x, y⟩
    intro h
    rcases hfx : flook x subst with _ | e1
    · rw [show dvCheck dbvars scopes subst ((x, y) :: rest) = .crash .substMiss by
        simp [dvCheck, hfx]] at h
      cases h
    · rcases hfy : flook y subst with _ | e2
      · rw [show dvCheck dbvars scopes subst ((x, y) :: rest) = .crash .substMiss by
          simp [dvCheck, hfx, hfy]] at h
        cases h
      · by_cases hall : ((addVars dbvars e1 []).all
            (fun a => (addVars dbvars e2 []).all (fun b => isdvr scopes a b))) = true
        · rw [show dvCheck dbvars scopes subst ((x, y) :: rest)
              = dvCheck dbvars scopes subst rest by
            simp [dvCheck, hfx, hfy, hall]] at h
          exact ih h
        · rw [show dvCheck dbvars scopes subst ((x, y) :: rest) = .ok false by
            simp only [dvCheck, hfx, hfy]
            rw [if_neg hall]] at h
          cases h

theorem verifyassertionref_no_top (db : DB) (scopes : List Scope)
    (thlabel reflabel : String) (stack : List Expression) :
    verifyassertionref db scopes thlabel reflabel stack ≠ .crash .top := by
  intro h
  rcases hA : flook reflabel db.assertions with _ | A
  · simp only [verifyassertionref, hA] at h
    cases h
  · simp only [verifyassertionref, hA] at h
    by_cases hlen : stack.length < A.hypotheses.length
    · rw [if_pos hlen] at h
      cases h
    · rw [if_neg hlen] at h
      rcases hu : unifyLoop db.hypotheses A.hypotheses
          (stack.drop (stack.length - A.hypotheses.length)) [] with ⟨b, subst⟩ | c
      · cases b with
        | false => simp only [hu] at h; cases h
        | true =>
          simp only [hu] at h
          rcases hd : dvCheck db.vars scopes subst A.disjvars with b2 | c2
          · cases b2 with
            | false => simp only [hd] at h; cases h
            | true => simp only [hd] at h; cases h
          · simp only [hd] at h
            have hc2 : c2 = .top := by cases h; rfl
            subst hc2
            exact dvCheck_no_top db.vars scopes subst A.disjvars hd
      · simp only [hu] at h
        have hc : c = .top := by cases h; rfl
        subst hc
        exact unifyLoop_no_top db.hypotheses A.hypotheses
          (stack.drop (stack.length - A.hypotheses.length)) [] hu

theorem verifyassertionref_ok_true_ne_nil (db : DB) (scopes : List Scope)
    (thlabel reflabel : String) (stack st2 : List Expression)
    (m : List String)
    (h : verifyassertionref db scopes thlabel reflabel stack = .ok (true, st2, m)) :
    st2 ≠ [] := by
  rcases hA : flook reflabel db.assertions with _ | A
  · simp only [verifyassertionref, hA] at h
    cases h
  · simp only [verifyassertionref, hA] at h
    by_cases hlen : stack.length < A.hypotheses.length
    · rw [if_pos hlen] at h
      cases h
    · rw [if_neg hlen] at h
      rcases hu : unifyLoop db.hypotheses A.hypotheses
          (stack.drop (stack.length - A.hypotheses.length)) [] with ⟨b, subst⟩ | c
      · cases b with
        | false => simp only [hu] at h; cases h
        | true =>
          simp only [hu] at h
          rcases hd : dvCheck db.vars scopes subst A.disjvars with b2 | c2
          · cases b2 with
            | false => simp only [hd] at h; cases h
            | true =>
              simp only [hd] at h
              have hst : st2 = stack.take (stack.length - A.hypotheses.length)
                  ++ [makesubstitution subst A.expression] := by
                cases h
                rfl
              rw [hst]
              simp
          · simp only [hd] at h; cases h
      · simp only [hu] at h; cases h

theorem cstep_nonzero (db : DB) (scopes : List Scope) (label : String)
    (thrm : Assertion) (labels : List String) (k : Nat)
    (stack saved : List Expression) (hk : ¬ k = 0) :
    cstep db scopes label thrm labels k stack saved ≠ .crash .top ∧
    (∀ st2 sv2 m, cstep db scopes label thrm labels k stack saved
        = .ok (true, st2, sv2, m) → st2 ≠ []) := by
  by_cases h1 : k ≤ thrm.hypotheses.length
  · rcases hget : thrm.hypotheses[k - 1]? with _ | hl
    · have hc : cstep db scopes label thrm labels k stack saved
          = .crash .oob := by simp [cstep, hk, h1, hget]
      rw [hc]
      exact ⟨(by intro h; simp at h), (by intro st2 sv2 m h; simp at h)⟩
    · rcases hfl : flook hl db.hypotheses with _ | hyp
      · have hc : cstep db scopes label thrm labels k stack saved
            = .crash .oob := by simp [cstep, hk, h1, hget, hfl]
        rw [hc]
        exact ⟨(by intro h; simp at h), (by intro st2 sv2 m h; simp at h)⟩
      · have hc : cstep db scopes label thrm labels k stack saved
            = .ok (true, stack ++ [hyp.1], saved, []) := by
          simp [cstep, hk, h1, hget, hfl]
        rw [hc]
        refine ⟨(by intro h; simp at h), ?_⟩
        intro st2 sv2 m h
        have h2 : stack ++ [hyp.1] = st2 :=
          congrArg (fun q => q.2.1) (Res.ok.inj h)
        rw [← h2]
        simp
  · by_cases h2 : k ≤ thrm.hypotheses.length + labels.length
    · rcases hget : labels[k - thrm.hypotheses.length - 1]? with _ | proofstep
      · have hc : cstep db scopes label thrm labels k stack saved
            = .crash .oob := by simp [cstep, hk, h1, h2, hget]
        rw [hc]
        exact ⟨(by intro h; simp at h), (by intro st2 sv2 m h; simp at h)⟩
      · rcases hfl : flook proofstep db.hypotheses with _ | hyp
        · rcases hv : verifyassertionref db scopes label proofstep stack
              with ⟨b, stack2, m2⟩ | c
          · have hc : cstep db scopes label thrm labels k stack saved
                = .ok (b, stack2, saved, m2) := by
              simp [cstep, hk, h1, h2, hget, hfl, hv]
            rw [hc]
            refine ⟨(by intro h; simp at h), ?_⟩
            intro st2 sv2 m h
            have hb : b = true := congrArg (fun q => q.1) (Res.ok.inj h)
            have hs : stack2 = st2 :=
              congrArg (fun q => q.2.1) (Res.ok.inj h)
            subst hb
            rw [← hs]
            exact verifyassertionref_ok_true_ne_nil db scopes label proofstep
              stack stack2 m2 hv
          · have hc : cstep db scopes label thrm labels k stack saved
                = .crash c := by
              simp [cstep, hk, h1, h2, hget, hfl, hv]
            rw [hc]
            refine ⟨?_, (by intro st2 sv2 m h; simp at h)⟩
            intro h
            have hceq : c = .top := by injection h
            subst hceq
            exact verifyassertionref_no_top db scopes label proofstep stack hv
        · have hc : cstep db scopes label thrm labels k stack saved
              = .ok (true, stack ++ [hyp.1], saved, []) := by
            simp [cstep, hk, h1, h2, hget, hfl]
          rw [hc]
          refine ⟨(by intro h; simp at h), ?_⟩
          intro st2 sv2 m h
          have h3 : stack ++ [hyp.1] = st2 :=
            congrArg (fun q => q.2.1) (Res.ok.inj h)
          rw [← h3]
          simp
    · by_cases h3 : k > thrm.hypotheses.length + labels.length + saved.length
      · have hc : cstep db scopes label thrm labels k stack saved
            = .ok (false, stack, saved,
                ["Number in compressed proof of " ++ label ++ " is too high"]) := by
          simp [cstep, hk, h1, h2, h3]
        rw [hc]
        exact ⟨(by intro h; simp at h), (by intro st2 sv2 m h; simp at h)⟩
      · rcases hget : saved[k - (thrm.hypotheses.length + labels.length) - 1]?
            with _ | e
        · have hc : cstep db scopes label thrm labels k stack saved
              = .crash .oob := by simp [cstep, hk, h1, h2, h3, hget]
          rw [hc]
          exact ⟨(by intro h; simp at h), (by intro st2 sv2 m h; simp at h)⟩
        · have hc : cstep db scopes label thrm labels k stack saved
              = .ok (true, stack ++ [e], saved, []) := by
            simp [cstep, hk, h1, h2, h3, hget]
          rw [hc]
          refine ⟨(by intro h; simp at h), ?_⟩
          intro st2 sv2 m h
          have h4 : stack ++ [e] = st2 :=
            congrArg (fun q => q.2.1) (Res.ok.inj h)
          rw [← h4]
          simp

theorem cLoop_no_top (db : DB) (scopes : List Scope) (label : String)
    (thrm : Assertion) (labels : List String) :
    ∀ (nums : List Nat) (jgn : Bool) (stack saved : List Expression)
      (msgs : List String),
      zGood jgn nums →
      (jgn = true → stack ≠ []) →
      cLoop db scopes label thrm labels nums stack saved msgs ≠ .crash .top := by
  intro nums
  induction nums with
  | nil => intro jgn stack saved msgs _ _ h; cases h
  | cons k rest ih =>
    intro jgn stack saved msgs hz hstack h
    obtain ⟨hz1, hz2⟩ := hz
    by_cases hk : k = 0
    · subst hk
      have hne : stack ≠ [] := hstack (hz1 rfl)
      obtain ⟨top, htop⟩ : ∃ top, stack.getLast? = some top := by
        rcases hlast : stack.getLast? with _ | top
        · rw [List.getLast?_eq_none_iff] at hlast
          exact absurd hlast hne
        · exact ⟨top, rfl⟩
      rw [show cLoop db scopes label thrm labels (0 :: rest) stack saved msgs
          = cLoop db scopes label thrm labels rest stack (saved ++ [top])
              (msgs ++ []) by
        simp only [cLoop]
        rw [show cstep db scopes label thrm labels 0 stack saved
            = .ok (true, stack, saved ++ [top], []) by simp [cstep, htop]]] at h
      refine ih false stack (saved ++ [top]) (msgs ++ []) ?_ (by simp) h
      rw [show (decide ((0 : Nat) ≠ 0)) = false by decide] at hz2
      exact hz2
    · obtain ⟨hnt, hok⟩ := cstep_nonzero db scopes label thrm labels k
        stack saved hk
      rcases hc : cstep db scopes label thrm labels k stack saved
          with ⟨b, st2, sv2, m⟩ | c
      · cases b with
        | false =>
          rw [show cLoop db scopes label thrm labels (k :: rest) stack saved msgs
              = .ok (false, st2, sv2, msgs ++ m) by
            simp only [cLoop]
            rw [hc]] at h
          cases h
        | true =>
          rw [show cLoop db scopes label thrm labels (k :: rest) stack saved msgs
              = cLoop db scopes label thrm labels rest st2 sv2 (msgs ++ m) by
            simp only [cLoop]
            rw [hc]] at h
          have hst2 : st2 ≠ [] := hok st2 sv2 m hc
          rw [show (decide (k ≠ 0)) = true from decide_eq_true hk] at hz2
          exact ih true st2 sv2 (msgs ++ m) hz2 (fun _ => hst2) h
      · rw [show cLoop db scopes label thrm labels (k :: rest) stack saved msgs
            = .crash c by
          simp only [cLoop]
          rw [hc]] at h
        have : c = .top := by cases h; rfl
        subst this
        exact hnt hc

/-- C10: whenever verifycompressedproof processes a decoded number 0 (save
marker) on numbers produced by a successful getproofnumbers run over
upper-case proof characters, the stack is non-empty: the unguarded
stack.back() access never hits an empty stack, because 0 never appears
first, never follows another 0, and every successful nonzero step leaves at
least one element on the stack. -/
theorem C10_spec (db : DB) (scopes : List Scope) (label lab2 : String)
    (thrm : Assertion) (labels : List String) (proof : String)
    (nums : List Nat)
    (hchars : ∀ c ∈ proof.data, 'A' ≤ c ∧ c ≤ 'Z')
    (hnums : getproofnumbers lab2 proof = .ok nums) :
    verifycompressedproof db scopes label thrm labels nums ≠ .crash .top := by
  intro h
  obtain ⟨suf, hout, hgood⟩ := gpnAux_zGood lab2 proof.data 0 false [] nums
    hchars hnums
  have hz : zGood false nums := by
    rw [show nums = suf by simpa using hout]
    exact hgood
  rcases hc : cLoop db scopes label thrm labels nums [] [] []
      with ⟨b, stack, saved, m⟩ | c
  · cases b with
    | false => simp only [verifycompressedproof, hc] at h; cases h
    | true =>
      simp only [verifycompressedproof, hc] at h
      rcases stack with _ | ⟨e1, rest⟩
      · cases h
      · rcases rest with _ | ⟨e2, rest2⟩
        · by_cases he : e1 = thrm.expression
          · simp [he] at h
          · simp [he] at h
        · cases h
  · simp only [verifycompressedproof, hc] at h
    have : c = .top := by cases h; rfl
    subst this
    exact cLoop_no_top db scopes label thrm labels nums false [] [] []
      hz (by simp) hc

/-- C10 witness: the proof string "AZ" decodes to [1, 0]; with one
resolvable mandatory hypothesis the verifier pushes it and then saves it,
never touching an empty stack top. -/
theorem C10_spec_witness :
    verifycompressedproof ⟨[], [], [("h1", (["wff"], true))], []⟩ [] "th"
      ⟨["h1"], [], ["wff"]⟩ [] [1, 0] ≠ .crash .top :=
  C10_spec ⟨[], [], [("h1", (["wff"], true))], []⟩ [] "th" "th"
    ⟨["h1"], [], ["wff"]⟩ [] ("AZ") [1, 0] (by decide) rfl

theorem rt_names_mono : ∀ fuel : Nat,
    (∀ (fs : String → Option String) (fn txt : String) (rst : RState)
       (b : Bool) (rst2 : RState),
      readtokensF fs fuel fn txt rst = some (b, rst2) →
      (∀ n ∈ rst.names, n ∈ rst2.names) ∧ fn ∈ rst2.names) ∧
    (∀ (fs : String → Option String) (rst : RState) (ic infl : Bool)
       (nf : String) (chars : List Char) (b : Bool) (rst2 : RState),
      rtLoop fs fuel rst ic infl nf chars = some (b, rst2) →
      ∀ n ∈ rst.names, n ∈ rst2.names) := by
  intro fuel
  induction fuel with
  | zero =>
    exact ⟨fun fs fn txt rst b rst2 h => (by cases h),
           fun fs rst ic infl nf chars b rst2 h => (by cases h)⟩
  | succ f ih =>
    obtain ⟨ihR, ihL⟩ := ih
    constructor
    · intro fs fn txt rst b rst2 h
      have hRunf : readtokensF fs (f + 1) fn txt rst
          = if rst.names.contains fn then some (true, rst)
            else
              match (if txt ≠ "" then some txt else fs fn) with
              | none => some (false, { rst with names := fn :: rst.names })
              | some src => rtLoop fs f { rst with names := fn :: rst.names }
                  false false "" src.data := rfl
      rw [hRunf] at h
      by_cases hin : rst.names.contains fn = true
      · rw [if_pos hin] at h
        have h2 : rst = rst2 := by cases h; rfl
        subst h2
        exact ⟨fun n hn => hn, (contains_true_iff _ _).mp hin⟩
      · rw [if_neg hin] at h
        rcases hsrc : (if txt ≠ "" then some txt else fs fn) with _ | src
        · rw [hsrc] at h
          have h2 : ({ rst with names := fn :: rst.names } : RState) = rst2 := by
            cases h; rfl
          rw [← h2]
          exact ⟨fun n hn => List.mem_cons_of_mem _ hn, List.mem_cons_self _ _⟩
        · rw [hsrc] at h
          have hsub := ihL fs { rst with names := fn :: rst.names }
            false false "" src.data b rst2 h
          exact ⟨fun n hn => hsub n (List.mem_cons_of_mem _ hn),
                 hsub fn (List.mem_cons_self _ _)⟩
    · intro fs rst ic infl nf chars b rst2 h
      have hunf : rtLoop fs (f + 1) rst ic infl nf chars
          = match nexttoken chars with
            | none => some (false, rst)
            | some (tok, rest) =>
              if tok = "" then
                if ic then some (false, rst)
                else if infl then some (false, rst)
                else some (true, rst)
              else if ic then
                if tok = "$)" then rtLoop fs f rst false infl nf rest
                else if hasSubstr "$(" tok then some (false, rst)
                else if hasSubstr "$)" tok then some (false, rst)
                else rtLoop fs f rst true infl nf rest
              else if tok = "$(" then rtLoop fs f rst true infl nf rest
              else if infl then
                if nf = "" then
                  if tok.data.contains '$' then some (false, rst)
                  else rtLoop fs f rst ic true tok rest
                else if tok ≠ "$]" then some (false, rst)
                else
                  match readtokensF fs f nf "" rst with
                  | none => none
                  | some (false, rst3) => some (false, rst3)
                  | some (true, rst3) => rtLoop fs f rst3 false false "" rest
              else if tok = "$[" then rtLoop fs f rst ic true "" rest
              else rtLoop fs f { rst with toks := rst.toks ++ [tok] }
                     ic infl nf rest := rfl
      rw [hunf] at h
      rcases hnt : nexttoken chars with _ | ⟨tok, rest⟩
      · simp only [hnt] at h
        have h2 : rst = rst2 := by cases h; rfl
        subst h2
        exact fun n hn => hn
      · simp only [hnt] at h
        by_cases h0 : tok = ""
        · rw [if_pos h0] at h
          split_ifs at h <;>
            (first
              | (have h2 : rst = rst2 := by cases h; rfl
                 subst h2
                 exact fun n hn => hn))
        · rw [if_neg h0] at h
          by_cases hic : ic
          · rw [if_pos hic] at h
            by_cases hcp : tok = "$)"
            · rw [if_pos hcp] at h
              exact ihL fs rst false infl nf rest b rst2 h
            · rw [if_neg hcp] at h
              split_ifs at h with hs1 hs2
              · have h2 : rst = rst2 := by cases h; rfl
                subst h2
                exact fun n hn => hn
              · have h2 : rst = rst2 := by cases h; rfl
                subst h2
                exact fun n hn => hn
              · exact ihL fs rst true infl nf rest b rst2 h
          · rw [if_neg hic] at h
            by_cases hop : tok = "$("
            · rw [if_pos hop] at h
              exact ihL fs rst true infl nf rest b rst2 h
            · rw [if_neg hop] at h
              by_cases hif : infl
              · rw [if_pos hif] at h
                by_cases hnf : nf = ""
                · rw [if_pos hnf] at h
                  by_cases hdl : tok.data.contains '$' = true
                  · rw [if_pos hdl] at h
                    have h2 : rst = rst2 := by cases h; rfl
                    subst h2
                    exact fun n hn => hn
                  · rw [if_neg hdl] at h
                    exact ihL fs rst ic true tok rest b rst2 h
                · rw [if_neg hnf] at h
                  by_cases hcl : tok ≠ "$]"
                  · rw [if_pos hcl] at h
                    have h2 : rst = rst2 := by cases h; rfl
                    subst h2
                    exact fun n hn => hn
                  · rw [if_neg hcl] at h
                    rcases hrt : readtokensF fs f nf "" rst with _ | ⟨b3, rst3⟩
                    · rw [hrt] at h
                      cases h
                    · rw [hrt] at h
                      cases b3 with
                      | false =>
                        have h2 : rst3 = rst2 := by cases h; rfl
                        exact fun n hn =>
                          h2 ▸ (ihR fs nf "" rst false rst3 hrt).1 n hn
                      | true =>
                        intro n hn
                        exact ihL fs rst3 false false "" rest b rst2 h n
                          ((ihR fs nf "" rst true rst3 hrt).1 n hn)
              · rw [if_neg hif] at h
                by_cases hob : tok = "$["
                · rw [if_pos hob] at h
                  exact ihL fs rst ic true "" rest b rst2 h
                · rw [if_neg hob] at h
                  exact ihL fs { rst with toks := rst.toks ++ [tok] }
                    ic infl nf rest b rst2 h

/-- C7: calling readtokens with a filename already recorded in the
encountered-names set returns true without reading the source or pushing any
token (the state is unchanged); consequently processing an inclusion of the
same filename a second time yields exactly the same token FIFO as processing
it once, whatever text or fuel is supplied the second time. -/
theorem C7_spec :
    (∀ (fuel : Nat) (fs : String → Option String) (fn txt : String)
       (rst : RState),
      rst.names.contains fn = true →
      readtokensF fs (fuel + 1) fn txt rst = some (true, rst)) ∧
    (∀ (fuel fuel2 : Nat) (fs : String → Option String) (fn txt txt2 : String)
       (rst : RState) (b : Bool) (rst2 : RState),
      readtokensF fs fuel fn txt rst = some (b, rst2) →
      readtokensF fs (fuel2 + 1) fn txt2 rst2 = some (true, rst2)) := by
  constructor
  · intro fuel fs fn txt rst hin
    have hRunf : readtokensF fs (fuel + 1) fn txt rst
        = if rst.names.contains fn then some (true, rst)
          else
            match (if txt ≠ "" then some txt else fs fn) with
            | none => some (false, { rst with names := fn :: rst.names })
            | some src => rtLoop fs fuel { rst with names := fn :: rst.names }
                false false "" src.data := rfl
    rw [hRunf, if_pos hin]
  · intro fuel fuel2 fs fn txt txt2 rst b rst2 h
    have hfn : fn ∈ rst2.names := ((rt_names_mono fuel).1 fs fn txt rst b rst2 h).2
    have hcontains : rst2.names.contains fn = true := (contains_true_iff _ _).mpr hfn
    have hRunf : readtokensF fs (fuel2 + 1) fn txt2 rst2
        = if rst2.names.contains fn then some (true, rst2)
          else
            match (if txt2 ≠ "" then some txt2 else fs fn) with
            | none => some (false, { rst2 with names := fn :: rst2.names })
            | some src => rtLoop fs fuel2 { rst2 with names := fn :: rst2.names }
                false false "" src.data := rfl
    rw [hRunf, if_pos hcontains]

/-- C7 witness: reading the source f once records it and pushes its three
tokens; a second call for f, even with different text, returns true and
leaves the FIFO exactly as after the first call; and a state that already
lists a name is returned untouched. -/
theorem C7_spec_witness :
    readtokensF (fun _ => none) 10 "f" "$c wff $." ⟨[], []⟩ =
      some (true, ⟨["f"], ["$c", "wff", "$."]⟩) ∧
    readtokensF (fun _ => none) 10 "f" "other" ⟨["f"], ["$c", "wff", "$."]⟩ =
      some (true, ⟨["f"], ["$c", "wff", "$."]⟩) ∧
    readtokensF (fun _ => none) 5 "g" "ignored" ⟨["g"], ["tok"]⟩ =
      some (true, ⟨["g"], ["tok"]⟩) := by
  refine ⟨by decide, ?_, ?_⟩
  · exact C7_spec.2 10 9 (fun _ => none) "f" "$c wff $." "other" ⟨[], []⟩
      true ⟨["f"], ["$c", "wff", "$."]⟩ (by decide)
  · exact C7_spec.1 4 (fun _ => none) "g" "ignored" ⟨["g"], ["tok"]⟩ (by decide)

/-- C8 counterexample: a $p statement whose proof contains the token "?"
followed by a label that is neither an assertion nor an active hypothesis is
rejected (parsep returns false with the "not an active statement" error, no
incompleteness warning), contradicting the claim that every such statement
is accepted with the warning. -/
theorem C8_counterexample :
    parsep ⟨⟨["wff"], [], [], []⟩,
        [⟨[], [], [], []⟩], ["wff", "$=", "?", "zzz", "$."]⟩ "thm" =
      .ok (false,
        ⟨⟨["wff"], [], [], [("thm", ⟨[], [], ["wff"]⟩)]⟩,
         [⟨[], [], [], []⟩], ["$."]⟩,
        ["Proof of theorem thm refers to zzz which is not an active statement"]) ∧
    "?" ∈ (["wff", "$=", "?", "zzz", "$."] : List String) := by
  exact ⟨by decide, by decide⟩

/-- C8 amended: a $p statement whose proof contains "?" is accepted with the
incompleteness warning and without invoking the proof verifier, provided the
proof-collection phase itself succeeds: the terminator is found, the proof
is non-empty, and (regular path) no step is a self-reference or an unknown
label, respectively (compressed path) the label list and proof-character
checks pass. -/
theorem C8_spec :
    (∀ (st : St) (label : String) (newtheorem : Expression)
       (toks1 : List String) (db1 : DB) (assertion : Assertion)
       (tok0 : String) (toks2 : List String) (proof t3 : List String),
      readexpression st.db st.scopes "p" label "$=" st.tokens
        = (some newtheorem, toks1, []) →
      constructassertion st.db st.scopes label newtheorem
        = .ok (db1, assertion) →
      toks1 = tok0 :: toks2 → tok0 ≠ "(" →
      collectRProof db1 st.scopes label toks1 [] false
        = (some (proof, true), t3, []) →
      proof ≠ [] →
      parsep st label = .ok (true, ⟨db1, st.scopes, t3.drop 1⟩,
        ["Warning: Proof of theorem " ++ label ++ " is incomplete"])) ∧
    (∀ (st : St) (label : String) (newtheorem : Expression)
       (toks2 : List String) (db1 : DB) (assertion : Assertion)
       (labels t3 : List String) (proof : String) (t4 : List String),
      readexpression st.db st.scopes "p" label "$=" st.tokens
        = (some newtheorem, "(" :: toks2, []) →
      constructassertion st.db st.scopes label newtheorem
        = .ok (db1, assertion) →
      collectCLabels db1 st.scopes label assertion.hypotheses toks2 []
        = (some labels, t3, []) →
      collectCProof label t3 "" = (some proof, t4, []) →
      proof ≠ "" →
      proof.data.contains '?' = true →
      parsep st label = .ok (true, ⟨db1, st.scopes, t4.drop 1⟩,
        ["Warning: Proof of theorem " ++ label ++ " is incomplete"])) := by
  constructor
  · intro st label newtheorem toks1 db1 assertion tok0 toks2 proof t3
      h1 h2 h3 h4 h5 h6
    subst h3
    simp only [parsep, h1, h2, h4, h5, h6]
    simp
  · intro st label newtheorem toks2 db1 assertion labels t3 proof t4
      h1 h2 h3 h4 h5 h6
    simp only [parsep, h1, h2, h3, h4, h5, h6]
    simp

/-- C8 witness: concrete $p statements with a "?" proof token, one regular
("? $.") and one compressed ("( ) A? $."), both accepted with the
incompleteness warning. -/
theorem C8_spec_witness :
    parsep ⟨⟨["wff"], [], [], []⟩, [⟨[], [], [], []⟩], ["wff", "$=", "?", "$."]⟩ "thm"
      = .ok (true,
          ⟨⟨["wff"], [], [], [("thm", ⟨[], [], ["wff"]⟩)]⟩, [⟨[], [], [], []⟩], []⟩,
          ["Warning: Proof of theorem thm is incomplete"]) ∧
    parsep ⟨⟨["wff"], [], [], []⟩, [⟨[], [], [], []⟩],
        ["wff", "$=", "(", ")", "A?", "$."]⟩ "thm"
      = .ok (true,
          ⟨⟨["wff"], [], [], [("thm", ⟨[], [], ["wff"]⟩)]⟩, [⟨[], [], [], []⟩], []⟩,
          ["Warning: Proof of theorem thm is incomplete"]) := by
  exact ⟨C8_spec.1 ⟨⟨["wff"], [], [], []⟩, [⟨[], [], [], []⟩], ["wff", "$=", "?", "$."]⟩
      "thm" ["wff"] ["?", "$."]
      ⟨["wff"], [], [], [("thm", ⟨[], [], ["wff"]⟩)]⟩ ⟨[], [], ["wff"]⟩
      "?" ["$."] ["?"] ["$."]
      (by decide) (by decide) rfl (by decide) (by decide) (by decide),
    C8_spec.2 ⟨⟨["wff"], [], [], []⟩, [⟨[], [], [], []⟩],
        ["wff", "$=", "(", ")", "A?", "$."]⟩
      "thm" ["wff"] [")", "A?", "$."]
      ⟨["wff"], [], [], [("thm", ⟨[], [], ["wff"]⟩)]⟩ ⟨[], [], ["wff"]⟩
      [] ["A?", "$."] "A?" ["$."]
      (by decide) (by decide) (by decide) (by decide) (by decide) (by decide)⟩
